import Mathlib

set_option maxHeartbeats 1000000

namespace StreamsRepo

/-
Part I: shallow embedding of the repository's actual source files.

src/streams.js builds a Readable and a Writable stream and registers a
"data" handler whose body is `res.send(chunk)`.  The only names bound at
top level in that file are Readable, Writable, readableStream and writable;
the handler's parameter binds chunk.  We embed the handler body as a tiny
expression tree and evaluate it against the set of bound names, mirroring
the JavaScript rule that referencing an unbound identifier raises a
ReferenceError at evaluation time.
-/

inductive JsErr where
  | referenceError (name : String)
deriving DecidableEq, Repr

inductive JsExpr where
  | var (name : String)
  | methodCall (obj : JsExpr) (method : String) (arg : JsExpr)
deriving DecidableEq, Repr

/-- Evaluate an embedded JavaScript expression for effects only: a variable
reference succeeds when the name is in scope and raises a ReferenceError
otherwise; a method call evaluates the receiver first, then the argument. -/
def evalJsExpr (env : List String) : JsExpr → Except JsErr Unit
  | .var n => if n ∈ env then .ok () else .error (.referenceError n)
  | .methodCall o _ a => do
      evalJsExpr env o
      evalJsExpr env a

/-- Names bound at top level in src/streams.js: the two destructured
imports and the two stream constants. -/
def streamsJsTopLevel : List String :=
  ["Readable", "Writable", "readableStream", "writable"]

/-- Body of the data handler in src/streams.js, line 15: res.send(chunk). -/
def dataHandlerBody : JsExpr :=
  .methodCall (.var "res") "send" (.var "chunk")

/-- Run the data handler of src/streams.js on one delivered chunk: the
handler parameter chunk is in scope on top of the module-level names. -/
def runDataHandler (_chunk : String) : Except JsErr Unit :=
  evalJsExpr ("chunk" :: streamsJsTopLevel) dataHandlerBody

/-- Deliver a list of chunks to the data handler in order, stopping at the
first raised error, as the event loop surfaces the first throw. -/
def runDataEvents : List String → Except JsErr Unit
  | [] => .ok ()
  | c :: cs => do
      runDataHandler c
      runDataEvents cs

/-
src/unnamed/part_000: an HTTP server whose request handler builds a
Transform stream `replaceWordProcessing` whose transform function computes
a replacement of "ipsum" by "geo" into `final` and then unconditionally
executes `throw new Error("something is fishy!!!")` BEFORE the line
`callback(null, final)`, so the callback is dead code.  The handler then
runs pipeline(readableStream, replaceWordProcessing, writeableStream, cb).
-/

inductive NodeErr where
  | jsError (msg : String)
deriving DecidableEq, Repr

/-- Transform function of replaceWordProcessing in src/unnamed/part_000
lines 27 to 35: the computed value `final` is discarded because the throw
on the next line executes before callback(null, final) is ever reached. -/
def replaceWordProcessing (chunk : String) : Except NodeErr String :=
  let _final := String.intercalate "geo" (chunk.splitOn "ipsum")
  Except.error (.jsError "something is fishy!!!")

structure NodePipelineOut where
  written : List String
  errorOut : Option NodeErr
deriving DecidableEq, Repr

/-- Behavior of stream.pipeline(readable, transform, writable, cb) for a
one-transform chain: each chunk read from the source is fed to the
transform; a throw from the transform destroys the chain, so nothing the
transform did not successfully emit reaches the writable, and the
completion callback receives the error; with no error the callback
receives null (modelled as none). -/
def runNodePipeline (tf : String → Except NodeErr String) :
    List String → NodePipelineOut
  | [] => ⟨[], none⟩
  | c :: cs =>
      match tf c with
      | .error e => ⟨[], some e⟩
      | .ok out =>
          let rest := runNodePipeline tf cs
          ⟨out :: rest.written, rest.errorOut⟩

/-- One request served by the server in src/unnamed/part_000: the pipeline
runs replaceWordProcessing over the chunks read from plain.txt and the
writable stream to output.txt receives the successfully transformed
chunks. -/
def serveRequestPart000 (fileChunks : List String) : NodePipelineOut :=
  runNodePipeline replaceWordProcessing fileChunks

/-
src/server.js lines 4 to 19: the request handler ends the response with no
body in both branches.  When req.url is not "/" it returns res.end()
without creating any stream; when req.url is "/" it creates a read stream
on plain.txt and a write stream on output.txt, registers a data handler
that writes each chunk through to output.txt, and calls res.end()
immediately.  The response body therefore never depends on the file copy.
-/

structure ServerEffects where
  responseBody : List String
  streamsCreated : Bool
  outputWrites : List String
deriving DecidableEq, Repr

/-- Request handler of src/server.js lines 4 to 19, with the chunks of
plain.txt as the second argument; outputWrites collects what the data
handler writes to output.txt. -/
def serverHandler (url : String) (plainTxt : List String) : ServerEffects :=
  if url ≠ "/" then ⟨[], false, []⟩
  else ⟨[], true, plainTxt⟩

end StreamsRepo

namespace PipelineCore

/-
Part II: the bounded-buffer streaming pipeline core.

Modelled from the spec: the repository contains no implementation of the
BoundedBuffer / Source / TransformStage / Sink / Pipeline core described
in spec sections 2 to 5 (src/ holds only demo scripts delegating to the
runtime's stream library), so the whole core below is built from the
spec's words.

Chunks are opaque payloads, instantiated as strings.  A transform step is
a function from one chunk to either an ordered list of output chunks or a
terminal transform error (modelled as none).
-/

abbrev Chunk := String

inductive PErr where
  | transformError (k : Nat)
  | cancelled
deriving DecidableEq, Repr

inductive PResult where
  | completed
  | failed (e : PErr)
deriving DecidableEq, Repr

/-- Modelled from the spec, section 4.1: a BoundedBuffer is an ordered
queue of chunks with a configured capacity and idempotent terminal
markers.  pushedLog and poppedLog record every chunk ever pushed and
popped (history, used to state invariants); terminalTaken records that a
pop has returned the terminal marker. -/
structure MBuffer where
  capacity : Nat
  queue : List Chunk
  ended : Bool
  err : Option PErr
  pushedLog : List Chunk
  poppedLog : List Chunk
  terminalTaken : Bool
deriving DecidableEq, Repr

/-- A buffer is closed once end-of-stream or an error has been recorded. -/
def MBuffer.closed (b : MBuffer) : Bool :=
  b.ended || b.err.isSome

inductive PushOut where
  | accepted (belowCapacity : Bool)
  | bufferClosed
deriving DecidableEq, Repr

/-- Modelled from the spec: tryPush appends the chunk and reports whether
occupancy remains below capacity after the push; it fails with
BufferClosed if end-of-stream or an error was already recorded. -/
def MBuffer.tryPush (b : MBuffer) (c : Chunk) : PushOut × MBuffer :=
  if b.closed then (.bufferClosed, b)
  else
    (.accepted (decide (b.queue.length + 1 < b.capacity)),
     { b with queue := b.queue ++ [c], pushedLog := b.pushedLog ++ [c] })

inductive PopOut where
  | chunk (c : Chunk)
  | endOfStream
  | errorMark (e : PErr)
  | blocked
deriving DecidableEq, Repr

/-- Modelled from the spec: pop removes and returns the oldest chunk, or a
terminal marker when the buffer is empty and closed (the recorded error
taking precedence), or blocks when the buffer is empty and open. -/
def MBuffer.pop (b : MBuffer) : PopOut × MBuffer :=
  match b.queue with
  | c :: rest =>
      (.chunk c, { b with queue := rest, poppedLog := b.poppedLog ++ [c] })
  | [] =>
      match b.err with
      | some e => (.errorMark e, { b with terminalTaken := true })
      | none =>
          if b.ended then (.endOfStream, { b with terminalTaken := true })
          else (.blocked, b)

/-- Modelled from the spec: markEnd records end-of-stream; idempotent. -/
def MBuffer.markEnd (b : MBuffer) : MBuffer :=
  { b with ended := true }

/-- Modelled from the spec: markError records a terminal error, keeping
the first recorded error; idempotent. -/
def MBuffer.markError (b : MBuffer) (e : PErr) : MBuffer :=
  if b.err.isSome then b else { b with err := some e }

/-- Drain a closed buffer by repeated pop: returns the pending chunks in
order, structurally recursing on the queue. -/
def MBuffer.drainList (b : MBuffer) : List Chunk :=
  b.queue

/-- The terminal marker pop returns once the queue of a closed buffer is
exhausted. -/
def MBuffer.terminalMark (b : MBuffer) : PopOut :=
  match b.err with
  | some e => .errorMark e
  | none => if b.ended then .endOfStream else .blocked

/-- Modelled from the spec, section 3: stream state of a TransformStage or
Sink; a cancelled stage is in state failed cancelled. -/
inductive StSt where
  | active
  | ended
  | failed (e : PErr)
deriving DecidableEq, Repr

/-- Modelled from the spec, section 4.2: stream state of the Source, which
additionally pauses on backpressure. -/
inductive SrcSt where
  | active
  | paused
  | ended
  | failed (e : PErr)
deriving DecidableEq, Repr

/-- A transform step function: one input chunk to an ordered list of
output chunks, or none for a terminal TransformError. -/
abbrev Tf := Chunk → Option (List Chunk)

/-- Modelled from the spec, section 4.4: a TransformStage with its step
function, its index in the pipeline, its stream state, the output chunks
produced but not yet pushed downstream (explicit internal residue),
and history fields: the inputs consumed successfully and the input on
which the step function raised, if any. -/
structure MStage where
  tf : Tf
  idx : Nat
  st : StSt
  pending : List Chunk
  consumed : List Chunk
  errIn : Option Chunk

/-- Modelled from the spec, section 4.5: the downstream part of a
composed pipeline, from one stage on: each stage owns its output buffer,
and the chain terminates in the Sink with the list of chunks it has
delivered, in order. -/
inductive Chain where
  | snk (st : StSt) (received : List Chunk)
  | stg (s : MStage) (ob : MBuffer) (rest : Chain)

/-- One scheduling turn of a TransformStage between its input and output
buffer: a stage whose state is not active does nothing; otherwise it first
pushes one pending output chunk when the output buffer is below capacity,
and only with an empty residue and a below-capacity output buffer does it
pull from its input buffer: a chunk is transformed (a raise records the
error on the output buffer and fails the stage), end-of-stream is
forwarded by markEnd, and an error marker fails the stage. -/
def stepStage (ib : MBuffer) (s : MStage) (ob : MBuffer) :
    MBuffer × MStage × MBuffer :=
  match s.st with
  | .active =>
      match s.pending with
      | c :: rest =>
          if ob.queue.length < ob.capacity then
            match ob.tryPush c with
            | (.accepted _, ob2) => (ib, { s with pending := rest }, ob2)
            | (.bufferClosed, _) => (ib, s, ob)
          else (ib, s, ob)
      | [] =>
          if ob.queue.length < ob.capacity then
            match ib.pop with
            | (.chunk c, ib2) =>
                match s.tf c with
                | some outs =>
                    (ib2, { s with pending := outs, consumed := s.consumed ++ [c] }, ob)
                | none =>
                    (ib2,
                     { s with st := .failed (.transformError s.idx), errIn := some c },
                     ob.markError (.transformError s.idx))
            | (.endOfStream, ib2) => (ib2, { s with st := .ended }, ob.markEnd)
            | (.errorMark e, ib2) => (ib2, { s with st := .failed e }, ob)
            | (.blocked, ib2) => (ib2, s, ob)
          else (ib, s, ob)
  | _ => (ib, s, ob)

/-- One scheduling turn of the Sink on its input buffer: an active Sink
pops; a chunk is delivered immediately (the Sink never deliberately
pauses), end-of-stream ends the Sink, an error marker fails it. -/
def stepSink (ib : MBuffer) (st : StSt) (recv : List Chunk) :
    MBuffer × StSt × List Chunk :=
  match st with
  | .active =>
      match ib.pop with
      | (.chunk c, ib2) => (ib2, .active, recv ++ [c])
      | (.endOfStream, ib2) => (ib2, .ended, recv)
      | (.errorMark e, ib2) => (ib2, .failed e, recv)
      | (.blocked, ib2) => (ib2, st, recv)
  | _ => (ib, st, recv)

/-- One scheduling turn of the whole downstream chain, upstream first:
each stage takes its turn, then the remainder of the chain runs on that
stage's updated output buffer. -/
def stepChain : MBuffer → Chain → MBuffer × Chain
  | ib, .snk st recv =>
      let t := stepSink ib st recv
      (t.1, .snk t.2.1 t.2.2)
  | ib, .stg s ob rest =>
      let t := stepStage ib s ob
      let u := stepChain t.2.2 rest
      (t.1, .stg t.2.1 u.1 u.2)

/-- Stream state of the Sink at the end of the chain. -/
def sinkStOf : Chain → StSt
  | .snk st _ => st
  | .stg _ _ rest => sinkStOf rest

/-- Chunks the Sink has received, in delivery order. -/
def receivedOf : Chain → List Chunk
  | .snk _ recv => recv
  | .stg _ _ rest => receivedOf rest

/-- The first failed stage found scanning the chain downstream, with its
error. -/
def firstFailedChain : Chain → Option PErr
  | .snk st _ =>
      match st with
      | .failed e => some e
      | _ => none
  | .stg s _ rest =>
      match s.st with
      | .failed e => some e
      | _ => firstFailedChain rest

/-- Modelled from the spec, sections 4.5 and 5: the full pipeline state.
origin0 is the finite sequence the Source will produce, originRem the part
not yet produced; pauses and resumes count the backpressure transitions of
the Source. -/
structure PState where
  origin0 : List Chunk
  originRem : List Chunk
  srcSt : SrcSt
  pauses : Nat
  resumes : Nat
  srcBuf : MBuffer
  chain : Chain
  result : Option PResult

def PState.received (p : PState) : List Chunk :=
  receivedOf p.chain

/-- One scheduling turn of the Source: an active Source pushes the next
origin chunk; when the origin is thereby exhausted it marks end-of-stream
on its buffer and ends; otherwise, when the push reported
not-below-capacity, it pauses (push-then-pause).  A paused, ended or
failed Source produces nothing. -/
def stepSrc (p : PState) : PState :=
  match p.srcSt with
  | .active =>
      match p.originRem with
      | [] => { p with srcSt := .ended, srcBuf := p.srcBuf.markEnd }
      | c :: rest =>
          match p.srcBuf.tryPush c with
          | (.accepted below, b2) =>
              if rest.isEmpty then
                { p with originRem := [], srcSt := .ended, srcBuf := b2.markEnd }
              else if below then
                { p with originRem := rest, srcBuf := b2 }
              else
                { p with originRem := rest, srcSt := .paused,
                         pauses := p.pauses + 1, srcBuf := b2 }
          | (.bufferClosed, _) => p
  | _ => p

def srcFailedErr : SrcSt → Option PErr
  | .failed e => some e
  | _ => none

/-- The error of the first stage observed in a Failed state, if any. -/
def anyFailed (p : PState) : Option PErr :=
  match srcFailedErr p.srcSt with
  | some e => some e
  | none => firstFailedChain p.chain

/-- Modelled from the spec, section 4.2: cancel transitions any not yet
failed stage to Failed(Cancelled); an already failed stage keeps its
error. -/
def cancelSt : StSt → StSt
  | .failed e => .failed e
  | _ => .failed .cancelled

def cancelSrcSt : SrcSt → SrcSt
  | .failed e => .failed e
  | _ => .failed .cancelled

/-- Cancel every stage of the chain and mark every buffer that is not yet
in an error state with the given error. -/
def propChain (e : PErr) : Chain → Chain
  | .snk st recv => .snk (cancelSt st) recv
  | .stg s ob rest => .stg { s with st := cancelSt s.st } (ob.markError e) (propChain e rest)

/-- Modelled from the spec, section 4.5: the all-or-nothing propagation
step triggered by the first observed failure: the pipeline result is fixed
to Failed with that error, every other stage is cancelled and every buffer
not yet in an error state is marked with the error. -/
def propagate (e : PErr) (p : PState) : PState :=
  { p with result := some (.failed e),
           srcSt := cancelSrcSt p.srcSt,
           srcBuf := p.srcBuf.markError e,
           chain := propChain e p.chain }

/-- The drain signal that resumes a paused Source within the acting step:
the chain turn popped the source buffer (strictly shorter queue) while
that buffer stood exactly at its capacity. -/
def srcResumes (p1 : PState) : Prop :=
  p1.srcSt = .paused ∧
  (stepChain p1.srcBuf p1.chain).1.queue.length < p1.srcBuf.queue.length ∧
  p1.srcBuf.queue.length = p1.srcBuf.capacity

instance (p1 : PState) : Decidable (srcResumes p1) :=
  inferInstanceAs (Decidable (_ ∧ _ ∧ _))

/-- Tail of an acting scheduler step, after the Source has taken its
turn: the chain takes its turns downstream; a pop that drops the source
buffer from at-capacity to below resumes a paused Source (drain signal)
within the same step; and when the Sink reaches Ended the pipeline
reports Completed. -/
def stepActTail (p1 : PState) : PState :=
  if sinkStOf (stepChain p1.srcBuf p1.chain).2 = .ended then
    { p1 with srcBuf := (stepChain p1.srcBuf p1.chain).1,
              chain := (stepChain p1.srcBuf p1.chain).2,
              srcSt := if srcResumes p1 then .active else p1.srcSt,
              resumes := if srcResumes p1 then p1.resumes + 1 else p1.resumes,
              result := some .completed }
  else
    { p1 with srcBuf := (stepChain p1.srcBuf p1.chain).1,
              chain := (stepChain p1.srcBuf p1.chain).2,
              srcSt := if srcResumes p1 then .active else p1.srcSt,
              resumes := if srcResumes p1 then p1.resumes + 1 else p1.resumes }

/-- One macro step of the pipeline scheduler.  A pipeline that has
reported its result is terminal.  Otherwise, if any stage is observed
Failed, this step is the propagation step.  Otherwise every component
takes one turn, Source first, then the chain downstream. -/
def step (p : PState) : PState :=
  if p.result.isSome then p
  else
    match anyFailed p with
    | some e => propagate e p
    | none => stepActTail (stepSrc p)

/-- A fresh buffer of the given capacity; every configured capacity is at
least one chunk. -/
def emptyBuf (cap : Nat) : MBuffer :=
  ⟨max cap 1, [], false, none, [], [], false⟩

/-- Build the downstream chain for the given transform step functions,
one fresh buffer per adjacent pair of stages; caps lists the configured
capacities, entry i for the input buffer of stage i. -/
def mkChain : Nat → List Tf → List Nat → Chain
  | _, [], _ => .snk .active []
  | i, tf :: tfs, caps =>
      .stg ⟨tf, i, .active, [], [], none⟩ (emptyBuf (caps.getD (i + 1) 1))
        (mkChain (i + 1) tfs caps)

/-- Modelled from the spec, section 4.5: compose and start a pipeline
Source to transforms to Sink over the given finite origin sequence. -/
def init (origin : List Chunk) (tfs : List Tf) (caps : List Nat) : PState :=
  ⟨origin, origin, .active, 0, 0, emptyBuf (caps.getD 0 1), mkChain 0 tfs caps, none⟩

/-- Denotational output of one transform over an input sequence on which
its step function never raises: the concatenation, in order, of the output
lists. -/
def applyTfAll (tf : Tf) : List Chunk → List Chunk
  | [] => []
  | c :: cs => (tf c).getD [] ++ applyTfAll tf cs

/-- Denotational output of one transform over an input sequence,
truncated at the first input on which the step function raises: no output
is produced from that input on. -/
def applyTf (tf : Tf) : List Chunk → List Chunk
  | [] => []
  | c :: cs =>
      match tf c with
      | none => []
      | some outs => outs ++ applyTf tf cs

/-- Denotational output of the whole transform chain over an origin
sequence, each stage truncating at its first raising input. -/
def pipeOut : List Tf → List Chunk → List Chunk
  | [], l => l
  | tf :: tfs, l => pipeOut tfs (applyTf tf l)

/-- Denotational input stream of stage i (stage 0 reads the origin). -/
def streamAt (tfs : List Tf) (origin : List Chunk) (i : Nat) : List Chunk :=
  pipeOut (tfs.take i) origin

/-- Whether a transform step function raises on some input of the given
sequence, all earlier inputs having succeeded. -/
def stageErr (tf : Tf) : List Chunk → Bool
  | [] => false
  | c :: cs =>
      match tf c with
      | none => true
      | some _ => stageErr tf cs

/-- Uppercase a chunk character by character, the transformation of the
spec's example scenario. -/
def upChunk (c : Chunk) : Chunk :=
  String.mk (c.data.map Char.toUpper)

/-- The uppercasing TransformStage step function of the spec's example
scenario: one output chunk per input chunk. -/
def upTf : Tf :=
  fun c => some [upChunk c]

/-- A transform step function that uppercases every chunk except the
chunk b, on which it raises; used to exercise the failure scenarios. -/
def errOnB : Tf :=
  fun c => if c = "b" then none else some [upChunk c]

/-- Modelled from the spec, sections 4.2 and 4.5: external cancellation of
the pipeline; after the pipeline has reported its result this is a no-op,
otherwise it is the propagation step for the Cancelled error. -/
def cancelPipeline (p : PState) : PState :=
  if p.result.isSome then p else propagate .cancelled p

/-- Drain a buffer by popping fuel times, collecting the chunks returned
and ending with the first non-chunk outcome. -/
def popAllAux : Nat → MBuffer → List Chunk × PopOut
  | 0, b => ([], b.pop.1)
  | n + 1, b =>
      match b.pop with
      | (.chunk c, b2) =>
          let r := popAllAux n b2
          (c :: r.1, r.2)
      | (m, _) => ([], m)

/-- Drain a buffer completely by repeated pop: the chunks obtained in
order, and the outcome pop reports once the queue is exhausted. -/
def popAll (b : MBuffer) : List Chunk × PopOut :=
  popAllAux b.queue.length b

/-- The state reached after n scheduler steps of the pipeline composed
from the given origin, transforms and capacities. -/
def runPipe (origin : List Chunk) (tfs : List Tf) (caps : List Nat) (n : Nat) :
    PState :=
  step^[n] (init origin tfs caps)

/-- The first list is an initial segment of the second. -/
def prefixOf (l1 l2 : List Chunk) : Prop :=
  ∃ t, l1 ++ t = l2

/-- A transform step function that never raises and emits nothing, used
as a harmless default when indexing transform lists. -/
def noTf : Tf :=
  fun _ => some []

/-- The transform step functions of the stages of a chain, upstream
first. -/
def chainTfs : Chain → List Tf
  | .snk _ _ => []
  | .stg s _ rest => s.tf :: chainTfs rest

/-- A result that is not a failure: none yet, or Completed. -/
def resOk (res : Option PResult) : Prop :=
  res = none ∨ res = some .completed

/-- Invariant of one buffer against the denotational stream that flows
through it: the push history splits into the pop history plus the current
queue; occupancy never exceeds the configured capacity; capacity is at
least one; after the terminal marker has been drained past the buffer it
holds no chunks and is closed; everything pushed is an initial segment of
the denotational stream; and a buffer marked ended has received the whole
stream. -/
def bufInv (stream : List Chunk) (b : MBuffer) : Prop :=
  b.pushedLog = b.poppedLog ++ b.queue ∧
  b.queue.length ≤ b.capacity ∧
  1 ≤ b.capacity ∧
  (b.terminalTaken = true → b.queue = [] ∧ b.closed = true) ∧
  prefixOf b.pushedLog stream ∧
  (b.ended = true → b.pushedLog = stream)

/-- Invariant of one TransformStage between its input and output buffer. -/
def stInv (res : Option PResult) (i : Nat) (ib : MBuffer) (s : MStage)
    (ob : MBuffer) : Prop :=
  s.idx = i ∧
  ib.poppedLog = s.consumed ++ s.errIn.toList ∧
  (∀ c ∈ s.consumed, (s.tf c).isSome = true) ∧
  applyTfAll s.tf s.consumed = ob.pushedLog ++ s.pending ∧
  (s.st = .ended →
    s.pending = [] ∧ s.errIn = none ∧ ib.ended = true ∧ ib.queue = [] ∧
    ob.ended = true) ∧
  (resOk res → ob.ended = true → s.st = .ended) ∧
  (∀ e, s.st = .failed e →
    s.errIn.isSome = true ∨ ib.err = some e ∨ (res ≠ none ∧ e = .cancelled)) ∧
  (∀ c, s.errIn = some c → s.tf c = none ∧ s.st = .failed (.transformError i)) ∧
  (res = none → ∀ e, ob.err = some e →
    e = .transformError i ∧ s.st = .failed e ∧ s.errIn.isSome = true)

/-- Invariant of the Sink against its input buffer. -/
def snkInv (res : Option PResult) (ib : MBuffer) (st : StSt)
    (recv : List Chunk) : Prop :=
  recv = ib.poppedLog ∧
  (st = .ended → ib.ended = true ∧ ib.queue = [] ∧ res = some .completed) ∧
  (∀ e, st = .failed e → ib.err = some e ∨ (res ≠ none ∧ e = .cancelled))

/-- Invariant of a chain given the denotational stream feeding its input
buffer: the input buffer is sound, the head component is sound, and the
remaining chain is sound against the transformed stream. -/
def chainInv (res : Option PResult) : Nat → List Chunk → MBuffer → Chain → Prop
  | _, stream, ib, .snk st recv => bufInv stream ib ∧ snkInv res ib st recv
  | i, stream, ib, .stg s ob rest =>
      bufInv stream ib ∧ stInv res i ib s ob ∧
      chainInv res (i + 1) (applyTf s.tf stream) ob rest

/-- Some stage of the chain raised the given error itself: the error
names that stage's index and the stage recorded the raising input. -/
def chainHasWit (e : PErr) : Chain → Prop
  | .snk _ _ => False
  | .stg s _ rest => (e = .transformError s.idx ∧ s.errIn.isSome = true) ∨
      chainHasWit e rest

/-- No stage or Sink of the chain is in a Failed state. -/
def noFailedChain (ch : Chain) : Prop :=
  firstFailedChain ch = none

/-- Every stage and the Sink of the chain reached Ended. -/
def allStagesEnded : Chain → Prop
  | .snk st _ => st = .ended
  | .stg s _ rest => s.st = .ended ∧ allStagesEnded rest

/-- Every stage and the Sink of the chain is in a Failed state (the form
cancellation leaves every component in). -/
def allStagesFailed : Chain → Prop
  | .snk st _ => ∃ e, st = .failed e
  | .stg s _ rest => (∃ e, s.st = .failed e) ∧ allStagesFailed rest

/-- Every buffer of the chain carries an error marker. -/
def allBufsMarked : Chain → Prop
  | .snk _ _ => True
  | .stg _ ob rest => ob.err ≠ none ∧ allBufsMarked rest

/-- The given property holds of every buffer of the pipeline: the source
buffer and every stage's output buffer. -/
def everyBuf (P : MBuffer → Prop) : MBuffer → Chain → Prop
  | sb, .snk _ _ => P sb
  | sb, .stg _ ob rest => P sb ∧ everyBuf P ob rest

/-- How a consumer turn may change its input buffer: the push history,
capacity, error and end markers are untouched, and the queue either stays
or loses its head. -/
def consumerEffect (ib b2 : MBuffer) : Prop :=
  b2.pushedLog = ib.pushedLog ∧ b2.capacity = ib.capacity ∧
  b2.err = ib.err ∧ b2.ended = ib.ended ∧
  (b2.queue = ib.queue ∨ ∃ c, ib.queue = c :: b2.queue)

/-- Global invariant of a pipeline state: source-side clauses, result
clauses, and the chain invariant against the origin stream. -/
def inv (p : PState) : Prop :=
  p.srcBuf.pushedLog ++ p.originRem = p.origin0 ∧
  (p.srcSt = .active → p.srcBuf.queue.length < p.srcBuf.capacity) ∧
  (p.srcSt = .paused →
    p.srcBuf.queue.length = p.srcBuf.capacity ∧ p.originRem ≠ []) ∧
  (p.srcSt = .ended → p.originRem = []) ∧
  (p.srcBuf.ended = true → p.srcSt ≠ .active ∧ p.srcSt ≠ .paused) ∧
  (resOk p.result → p.srcBuf.err = none) ∧
  (resOk p.result → srcFailedErr p.srcSt = none) ∧
  (p.result = some .completed → sinkStOf p.chain = .ended) ∧
  (∀ e, p.result = some (.failed e) → chainHasWit e p.chain) ∧
  chainInv p.result 0 p.origin0 p.srcBuf p.chain

theorem markError_idem (b : MBuffer) (e : PErr) :
    (b.markError e).markError e = b.markError e := by
  unfold MBuffer.markError
  cases h : b.err.isSome <;> simp [h]

theorem pop_preserves_closed (b : MBuffer) : (b.pop.2).closed = b.closed := by
  unfold MBuffer.pop MBuffer.closed
  cases hq : b.queue with
  | nil =>
      cases he : b.err with
      | none => by_cases hd : b.ended <;> simp [he, hd]
      | some e => simp [he]
  | cons c q => simp

theorem pop_preserves_mark (b : MBuffer) :
    (b.pop.2).err = b.err ∧ (b.pop.2).ended = b.ended ∧
    (b.pop.2).terminalMark = b.terminalMark := by
  unfold MBuffer.pop MBuffer.terminalMark
  cases hq : b.queue with
  | nil =>
      cases he : b.err with
      | none => by_cases hd : b.ended <;> simp [he, hd]
      | some e => simp [he]
  | cons c q => simp

theorem popAllAux_closed (q : List Chunk) :
    ∀ b : MBuffer, b.queue = q → b.closed = true →
      popAllAux q.length b = (q, b.terminalMark) := by
  induction q with
  | nil =>
      intro b hq hc
      unfold popAllAux MBuffer.pop MBuffer.terminalMark
      unfold MBuffer.closed at hc
      cases he : b.err with
      | none =>
          simp [he, Option.isSome] at hc
          simp [hq, he, hc]
      | some e => simp [hq, he]
  | cons c rest ih =>
      intro b hq hc
      have hpop : b.pop = (.chunk c,
          { b with queue := rest, poppedLog := b.poppedLog ++ [c] }) := by
        unfold MBuffer.pop
        simp [hq]
      have hc2 : ({ b with queue := rest, poppedLog := b.poppedLog ++ [c] } :
          MBuffer).closed = true := by
        unfold MBuffer.closed at hc ⊢
        exact hc
      have := ih { b with queue := rest, poppedLog := b.poppedLog ++ [c] } rfl hc2
      unfold popAllAux
      simp [hpop, this]
      unfold MBuffer.terminalMark
      rfl

end PipelineCore

namespace StreamsRepo

/-- C8: in src/streams.js the data event handler references the variable
res, which is bound nowhere in the file, so evaluating the handler on any
delivered chunk raises a ReferenceError, and whenever at least one chunk
is consumed the data event processing surfaces that error. -/
theorem c8_data_handler_reference_error :
    (∀ c : String, runDataHandler c = .error (.referenceError "res")) ∧
    (∀ chunks : List String, chunks ≠ [] →
      runDataEvents chunks = .error (.referenceError "res")) := by
  have h1 : ∀ c : String, runDataHandler c = .error (.referenceError "res") := by
    intro c
    rfl
  refine ⟨h1, ?_⟩
  intro chunks hne
  cases chunks with
  | nil => exact absurd rfl hne
  | cons c cs =>
      unfold runDataEvents
      rw [h1 c]
      rfl

/-- Witness for C8 at the concrete chunk pushed in src/streams.js. -/
theorem c8_data_handler_reference_error_witness :
    (["hey new data is pushed"] : List String) ≠ [] ∧
    runDataEvents ["hey new data is pushed"] = .error (.referenceError "res") :=
  ⟨by decide, c8_data_handler_reference_error.2 ["hey new data is pushed"] (by decide)⟩

/-- C9: in src/unnamed/part_000 the transform function throws
unconditionally before invoking its callback, so on every request whose
input file yields at least one chunk the pipeline completion callback
receives the error and the writable stream to output.txt receives no
transformed chunk. -/
theorem c9_transform_always_throws :
    (∀ c : String,
      replaceWordProcessing c = .error (.jsError "something is fishy!!!")) ∧
    (∀ fileChunks : List String, fileChunks ≠ [] →
      (serveRequestPart000 fileChunks).errorOut =
          some (.jsError "something is fishy!!!") ∧
      (serveRequestPart000 fileChunks).written = []) := by
  have h1 : ∀ c : String,
      replaceWordProcessing c = .error (.jsError "something is fishy!!!") := by
    intro c
    rfl
  refine ⟨h1, ?_⟩
  intro fileChunks hne
  cases fileChunks with
  | nil => exact absurd rfl hne
  | cons c cs =>
      unfold serveRequestPart000 runNodePipeline
      rw [h1 c]
      exact ⟨rfl, rfl⟩

/-- Witness for C9 on a one-chunk file. -/
theorem c9_transform_always_throws_witness :
    (["lorem ipsum dolor"] : List String) ≠ [] ∧
    (serveRequestPart000 ["lorem ipsum dolor"]).errorOut =
        some (.jsError "something is fishy!!!") ∧
    (serveRequestPart000 ["lorem ipsum dolor"]).written = [] :=
  ⟨by decide, c9_transform_always_throws.2 ["lorem ipsum dolor"] (by decide)⟩

/-- C10: in src/server.js every request gets an empty response body; a
request whose url is not the root creates no stream and writes nothing to
output.txt, and the response body never depends on the content copied
from plain.txt to output.txt. -/
theorem c10_response_empty_and_independent :
    (∀ (url : String) (file : List String),
      (serverHandler url file).responseBody = []) ∧
    (∀ (url : String) (file : List String), url ≠ "/" →
      (serverHandler url file).streamsCreated = false ∧
      (serverHandler url file).outputWrites = []) ∧
    (∀ (url : String) (f g : List String),
      (serverHandler url f).responseBody = (serverHandler url g).responseBody) := by
  refine ⟨?_, ?_, ?_⟩
  · intro url file
    unfold serverHandler
    split <;> rfl
  · intro url file hne
    unfold serverHandler
    rw [if_pos hne]
    exact ⟨rfl, rfl⟩
  · intro url f g
    unfold serverHandler
    split <;> rfl

/-- Witness for C10 at a non-root url. -/
theorem c10_response_empty_and_independent_witness :
    ("/favicon.ico" : String) ≠ "/" ∧
    (serverHandler "/favicon.ico" ["chunk1"]).streamsCreated = false ∧
    (serverHandler "/favicon.ico" ["chunk1"]).outputWrites = [] ∧
    (serverHandler "/favicon.ico" ["chunk1"]).responseBody = [] := by
  have h := c10_response_empty_and_independent.2.1 "/favicon.ico" ["chunk1"]
    (by decide)
  exact ⟨by decide, h.1, h.2,
    c10_response_empty_and_independent.1 "/favicon.ico" ["chunk1"]⟩

end StreamsRepo

namespace PipelineCore

/-- C5: markEnd and markError are idempotent; once either terminal marker
is set every subsequent tryPush fails with BufferClosed and leaves the
buffer unchanged; the chunks already queued remain drainable by pop in
FIFO order, and the terminal marker is returned only once the queue is
empty. -/
theorem c5_buffer_terminal_markers :
    (∀ b : MBuffer, b.markEnd.markEnd = b.markEnd) ∧
    (∀ (b : MBuffer) (e : PErr), (b.markError e).markError e = b.markError e) ∧
    (∀ b : MBuffer, b.markEnd.closed = true) ∧
    (∀ (b : MBuffer) (e : PErr), (b.markError e).closed = true) ∧
    (∀ (b : MBuffer) (c : Chunk), b.closed = true → b.tryPush c = (.bufferClosed, b)) ∧
    (∀ b : MBuffer, b.closed = true → popAll b = (b.queue, b.terminalMark)) ∧
    (∀ b : MBuffer,
      b.pop.1 = .endOfStream ∨ (∃ e, b.pop.1 = .errorMark e) → b.queue = []) := by
  refine ⟨?_, markError_idem, ?_, ?_, ?_, ?_, ?_⟩
  · intro b
    rfl
  · intro b
    simp [MBuffer.markEnd, MBuffer.closed]
  · intro b e
    unfold MBuffer.markError MBuffer.closed
    cases h : b.err with
    | none => simp [h]
    | some x => simp [h]
  · intro b c hc
    unfold MBuffer.tryPush
    simp [hc]
  · intro b hc
    exact popAllAux_closed b.queue b rfl hc
  · intro b h
    unfold MBuffer.pop at h
    cases hq : b.queue with
    | nil => rfl
    | cons c q =>
        rcases h with h | ⟨e, h⟩ <;> simp [hq] at h

/-- Witness for C5 on a closed two-chunk buffer. -/
theorem c5_buffer_terminal_markers_witness :
    (⟨2, ["x", "y"], true, none, ["x", "y"], [], false⟩ :
        MBuffer).closed = true ∧
    popAll ⟨2, ["x", "y"], true, none, ["x", "y"], [], false⟩ =
      (["x", "y"], .endOfStream) ∧
    (⟨2, ["x", "y"], true, none, ["x", "y"], [], false⟩ :
        MBuffer).tryPush "z" =
      (.bufferClosed, ⟨2, ["x", "y"], true, none, ["x", "y"], [], false⟩) := by
  have h6 := c5_buffer_terminal_markers.2.2.2.2.2.1
    ⟨2, ["x", "y"], true, none, ["x", "y"], [], false⟩ (by decide)
  have h5 := c5_buffer_terminal_markers.2.2.2.2.1
    ⟨2, ["x", "y"], true, none, ["x", "y"], [], false⟩ "z" (by decide)
  exact ⟨by decide, by rw [h6]; rfl, h5⟩

/-- C6: cancelling the pipeline is idempotent, any number of calls gives
the state of a single call, cancelling after the pipeline has reported its
result changes nothing (in particular the reported result is unchanged),
a cancelled pipeline is terminal for the scheduler, and cancel always
returns a reported result rather than raising anything. -/
theorem c6_cancel_idempotent :
    (∀ p : PState, cancelPipeline (cancelPipeline p) = cancelPipeline p) ∧
    (∀ (p : PState) (n : Nat), cancelPipeline^[n + 1] p = cancelPipeline p) ∧
    (∀ (p : PState) (r : PResult), p.result = some r → cancelPipeline p = p) ∧
    (∀ p : PState, step (cancelPipeline p) = cancelPipeline p) ∧
    (∀ p : PState, (cancelPipeline p).result.isSome = true) := by
  have hsome : ∀ p : PState, (cancelPipeline p).result.isSome = true := by
    intro p
    unfold cancelPipeline
    cases h : p.result.isSome with
    | true => simp [h]
    | false => simp [h, propagate]
  have hnoop : ∀ p : PState, p.result.isSome = true → cancelPipeline p = p := by
    intro p h
    unfold cancelPipeline
    simp [h]
  have hidem : ∀ p : PState, cancelPipeline (cancelPipeline p) = cancelPipeline p :=
    fun p => hnoop _ (hsome p)
  refine ⟨hidem, ?_, ?_, ?_, hsome⟩
  · intro p n
    induction n with
    | zero => rfl
    | succ m ih =>
        rw [Function.iterate_succ_apply', ih, hidem]
  · intro p r h
    exact hnoop p (by simp [h])
  · intro p
    unfold step
    simp [hsome p]

/-- Witness for C6 on a pipeline that has reported Completed. -/
theorem c6_cancel_idempotent_witness :
    (step^[8] (init ["a", "b", "c"]
        [upTf] [1, 1])).result = some .completed ∧
    cancelPipeline (step^[8] (init ["a", "b", "c"]
        [upTf] [1, 1])) =
      step^[8] (init ["a", "b", "c"] [upTf] [1, 1]) := by
  refine ⟨by decide, ?_⟩
  exact c6_cancel_idempotent.2.2.1 _ .completed (by decide)

/-- C7: on the spec's example scenario (origin a, b, c then end-of-stream,
one uppercasing TransformStage, every buffer of capacity one) the Sink
receives exactly A, B, C in order, the run reports Completed, the Source
pauses exactly twice and resumes exactly twice, and the reached state is
terminal. -/
theorem c7_example_scenario :
    (step^[8] (init ["a", "b", "c"]
        [upTf] [1, 1])).received = ["A", "B", "C"] ∧
    (step^[8] (init ["a", "b", "c"]
        [upTf] [1, 1])).result = some .completed ∧
    (step^[8] (init ["a", "b", "c"]
        [upTf] [1, 1])).pauses = 2 ∧
    (step^[8] (init ["a", "b", "c"]
        [upTf] [1, 1])).resumes = 2 ∧
    (step^[8] (init ["a", "b", "c"]
        [upTf] [1, 1])).received =
      pipeOut [upTf] ["a", "b", "c"] := by
  refine ⟨?_, by decide, by decide, by decide, ?_⟩ <;> decide

end PipelineCore

namespace PipelineCore

theorem prefixOf_refl (l : List Chunk) : prefixOf l l :=
  ⟨[], List.append_nil l⟩

theorem prefixOf_trans {l1 l2 l3 : List Chunk} (h1 : prefixOf l1 l2)
    (h2 : prefixOf l2 l3) : prefixOf l1 l3 := by
  obtain ⟨t1, ht1⟩ := h1
  obtain ⟨t2, ht2⟩ := h2
  exact ⟨t1 ++ t2, by rw [← List.append_assoc, ht1, ht2]⟩

theorem prefixOf_append (l t : List Chunk) : prefixOf l (l ++ t) :=
  ⟨t, rfl⟩

theorem tryPush_closed_eq {b : MBuffer} (h : b.closed = true) (c : Chunk) :
    b.tryPush c = (.bufferClosed, b) := by
  simp [MBuffer.tryPush, h]

theorem tryPush_open_eq {b : MBuffer} (h : b.closed = false) (c : Chunk) :
    b.tryPush c = (.accepted (decide (b.queue.length + 1 < b.capacity)),
      { b with queue := b.queue ++ [c], pushedLog := b.pushedLog ++ [c] }) := by
  simp [MBuffer.tryPush, h]

theorem pop_cons_eq {b : MBuffer} {c : Chunk} {q : List Chunk}
    (h : b.queue = c :: q) :
    b.pop = (.chunk c, { b with queue := q, poppedLog := b.poppedLog ++ [c] }) := by
  simp [MBuffer.pop, h]

theorem pop_err_eq {b : MBuffer} {e : PErr} (hq : b.queue = [])
    (he : b.err = some e) :
    b.pop = (.errorMark e, { b with terminalTaken := true }) := by
  simp [MBuffer.pop, hq, he]

theorem pop_end_eq {b : MBuffer} (hq : b.queue = []) (he : b.err = none)
    (hd : b.ended = true) :
    b.pop = (.endOfStream, { b with terminalTaken := true }) := by
  simp [MBuffer.pop, hq, he, hd]

theorem pop_blocked_eq {b : MBuffer} (hq : b.queue = []) (he : b.err = none)
    (hd : b.ended = false) :
    b.pop = (.blocked, b) := by
  simp [MBuffer.pop, hq, he, hd]

theorem applyTfAll_append (tf : Tf) (l1 l2 : List Chunk) :
    applyTfAll tf (l1 ++ l2) = applyTfAll tf l1 ++ applyTfAll tf l2 := by
  induction l1 with
  | nil => rfl
  | cons c cs ih => simp [applyTfAll, ih]

theorem applyTf_eq_all {tf : Tf} {l : List Chunk}
    (h : ∀ c ∈ l, (tf c).isSome = true) : applyTf tf l = applyTfAll tf l := by
  induction l with
  | nil => rfl
  | cons c cs ih =>
      obtain ⟨outs, ho⟩ := Option.isSome_iff_exists.mp (h c (by simp))
      simp [applyTf, applyTfAll, ho, ih (fun x hx => h x (by simp [hx]))]

theorem applyTf_append_all {tf : Tf} {l1 : List Chunk} (l2 : List Chunk)
    (h : ∀ c ∈ l1, (tf c).isSome = true) :
    applyTf tf (l1 ++ l2) = applyTfAll tf l1 ++ applyTf tf l2 := by
  induction l1 with
  | nil => rfl
  | cons c cs ih =>
      obtain ⟨outs, ho⟩ := Option.isSome_iff_exists.mp (h c (by simp))
      simp [applyTf, applyTfAll, ho, ih (fun x hx => h x (by simp [hx]))]

theorem applyTfAll_prefixOf_applyTf {tf : Tf} {l1 l2 : List Chunk}
    (hp : prefixOf l1 l2) (h : ∀ c ∈ l1, (tf c).isSome = true) :
    prefixOf (applyTfAll tf l1) (applyTf tf l2) := by
  obtain ⟨t, ht⟩ := hp
  rw [← ht, applyTf_append_all t h]
  exact prefixOf_append _ _

theorem stageErr_append_all {tf : Tf} {l1 : List Chunk} {c : Chunk}
    (l2 : List Chunk) (h : ∀ x ∈ l1, (tf x).isSome = true) (hc : tf c = none) :
    stageErr tf (l1 ++ c :: l2) = true := by
  induction l1 with
  | nil => simp [stageErr, hc]
  | cons a as ih =>
      obtain ⟨outs, ho⟩ := Option.isSome_iff_exists.mp (h a (by simp))
      simp [stageErr, ho, ih (fun x hx => h x (by simp [hx]))]

theorem pop_effect (b : MBuffer) : consumerEffect b b.pop.2 := by
  unfold consumerEffect MBuffer.pop
  cases hq : b.queue with
  | nil =>
      cases he : b.err with
      | none => by_cases hd : b.ended <;> simp [hq, he, hd]
      | some e => simp [hq, he]
  | cons c q => exact ⟨rfl, rfl, rfl, rfl, Or.inr ⟨c, rfl⟩⟩

theorem consumerEffect_refl (b : MBuffer) : consumerEffect b b :=
  ⟨rfl, rfl, rfl, rfl, Or.inl rfl⟩

theorem stepStage_cases (ib : MBuffer) (s : MStage) (ob : MBuffer) :
    (stepStage ib s ob = (ib, s, ob)) ∨
    (∃ c r, s.st = .active ∧ s.pending = c :: r ∧
      ob.queue.length < ob.capacity ∧ ob.closed = false ∧
      stepStage ib s ob = (ib, { s with pending := r },
        { ob with queue := ob.queue ++ [c], pushedLog := ob.pushedLog ++ [c] })) ∨
    (∃ c q, s.st = .active ∧ s.pending = [] ∧
      ob.queue.length < ob.capacity ∧ ib.queue = c :: q ∧
      ((∃ outs, s.tf c = some outs ∧
          stepStage ib s ob =
            ({ ib with queue := q, poppedLog := ib.poppedLog ++ [c] },
             { s with pending := outs, consumed := s.consumed ++ [c] }, ob)) ∨
       (s.tf c = none ∧
          stepStage ib s ob =
            ({ ib with queue := q, poppedLog := ib.poppedLog ++ [c] },
             { s with st := .failed (.transformError s.idx), errIn := some c },
             ob.markError (.transformError s.idx))))) ∨
    (s.st = .active ∧ s.pending = [] ∧
      ob.queue.length < ob.capacity ∧ ib.queue = [] ∧
      ((∃ e, ib.err = some e ∧
          stepStage ib s ob =
            ({ ib with terminalTaken := true }, { s with st := .failed e }, ob)) ∨
       (ib.err = none ∧ ib.ended = true ∧
          stepStage ib s ob =
            ({ ib with terminalTaken := true }, { s with st := .ended },
             ob.markEnd)))) := by
  obtain ⟨tf, idx, st, pending, consumed, errIn⟩ := s
  obtain ⟨icap, iqu, iend, ierr, ipl, ippl, itt⟩ := ib
  obtain ⟨ocap, oqu, oend, oerr, opl, oppl, ott⟩ := ob
  cases st with
  | ended => exact Or.inl rfl
  | failed e => exact Or.inl rfl
  | active =>
      cases pending with
      | cons c r =>
          by_cases hlt : oqu.length < ocap
          · cases oend with
            | true =>
                exact Or.inl (by simp [stepStage, hlt, MBuffer.tryPush,
                  MBuffer.closed])
            | false =>
                cases oerr with
                | some e =>
                    exact Or.inl (by simp [stepStage, hlt, MBuffer.tryPush,
                      MBuffer.closed])
                | none =>
                    refine Or.inr (Or.inl ⟨c, r, rfl, rfl, hlt, rfl, ?_⟩)
                    simp [stepStage, hlt, MBuffer.tryPush, MBuffer.closed]
          · exact Or.inl (by simp [stepStage, hlt])
      | nil =>
          by_cases hlt : oqu.length < ocap
          · cases iqu with
            | cons c q =>
                cases htf : tf c with
                | some outs =>
                    refine Or.inr (Or.inr (Or.inl
                      ⟨c, q, rfl, rfl, hlt, rfl, Or.inl ⟨outs, htf, ?_⟩⟩))
                    simp [stepStage, hlt, MBuffer.pop, htf]
                | none =>
                    refine Or.inr (Or.inr (Or.inl
                      ⟨c, q, rfl, rfl, hlt, rfl, Or.inr ⟨htf, ?_⟩⟩))
                    simp [stepStage, hlt, MBuffer.pop, htf]
            | nil =>
                cases ierr with
                | some e =>
                    refine Or.inr (Or.inr (Or.inr
                      ⟨rfl, rfl, hlt, rfl, Or.inl ⟨e, rfl, ?_⟩⟩))
                    simp [stepStage, hlt, MBuffer.pop]
                | none =>
                    cases iend with
                    | true =>
                        refine Or.inr (Or.inr (Or.inr
                          ⟨rfl, rfl, hlt, rfl, Or.inr ⟨rfl, rfl, ?_⟩⟩))
                        simp [stepStage, hlt, MBuffer.pop]
                    | false =>
                        exact Or.inl (by simp [stepStage, hlt, MBuffer.pop])
          · exact Or.inl (by simp [stepStage, hlt])

theorem stepSink_cases (ib : MBuffer) (st : StSt) (recv : List Chunk) :
    (stepSink ib st recv = (ib, st, recv)) ∨
    (∃ c q, st = .active ∧ ib.queue = c :: q ∧
      stepSink ib st recv =
        ({ ib with queue := q, poppedLog := ib.poppedLog ++ [c] },
         .active, recv ++ [c])) ∨
    (st = .active ∧ ib.queue = [] ∧
      ((∃ e, ib.err = some e ∧
          stepSink ib st recv =
            ({ ib with terminalTaken := true }, .failed e, recv)) ∨
       (ib.err = none ∧ ib.ended = true ∧
          stepSink ib st recv =
            ({ ib with terminalTaken := true }, .ended, recv)))) := by
  obtain ⟨icap, iqu, iend, ierr, ipl, ippl, itt⟩ := ib
  cases st with
  | ended => exact Or.inl rfl
  | failed e => exact Or.inl rfl
  | active =>
      cases iqu with
      | cons c q =>
          refine Or.inr (Or.inl ⟨c, q, rfl, rfl, ?_⟩)
          simp [stepSink, MBuffer.pop]
      | nil =>
          cases ierr with
          | some e =>
              refine Or.inr (Or.inr ⟨rfl, rfl, Or.inl ⟨e, rfl, ?_⟩⟩)
              simp [stepSink, MBuffer.pop]
          | none =>
              cases iend with
              | true =>
                  refine Or.inr (Or.inr ⟨rfl, rfl, Or.inr ⟨rfl, rfl, ?_⟩⟩)
                  simp [stepSink, MBuffer.pop]
              | false =>
                  exact Or.inl (by simp [stepSink, MBuffer.pop])

end PipelineCore

namespace PipelineCore

theorem stepStage_effect (ib : MBuffer) (s : MStage) (ob : MBuffer) :
    consumerEffect ib (stepStage ib s ob).1 := by
  rcases stepStage_cases ib s ob with h | ⟨c, r, h1, h2, h3, h4, h⟩ |
    ⟨c, q, h1, h2, h3, hq, hsub⟩ | ⟨h1, h2, h3, hq, hsub⟩
  · rw [h]; exact consumerEffect_refl ib
  · rw [h]; exact consumerEffect_refl ib
  · rcases hsub with ⟨outs, ho, h⟩ | ⟨ho, h⟩ <;> rw [h] <;>
      exact ⟨rfl, rfl, rfl, rfl, Or.inr ⟨c, hq⟩⟩
  · rcases hsub with ⟨e, he, h⟩ | ⟨he, hd, h⟩ <;> rw [h] <;>
      exact ⟨rfl, rfl, rfl, rfl, Or.inl rfl⟩

theorem stepSink_effect (ib : MBuffer) (st : StSt) (recv : List Chunk) :
    consumerEffect ib (stepSink ib st recv).1 := by
  rcases stepSink_cases ib st recv with h | ⟨c, q, h1, hq, h⟩ |
    ⟨h1, hq, hsub⟩
  · rw [h]; exact consumerEffect_refl ib
  · rw [h]; exact ⟨rfl, rfl, rfl, rfl, Or.inr ⟨c, hq⟩⟩
  · rcases hsub with ⟨e, he, h⟩ | ⟨he, hd, h⟩ <;> rw [h] <;>
      exact ⟨rfl, rfl, rfl, rfl, Or.inl rfl⟩

theorem stepChain_effect (ib : MBuffer) (ch : Chain) :
    consumerEffect ib (stepChain ib ch).1 := by
  cases ch with
  | snk st recv => exact stepSink_effect ib st recv
  | stg s ob rest => exact stepStage_effect ib s ob

theorem stepStage_tf (ib : MBuffer) (s : MStage) (ob : MBuffer) :
    (stepStage ib s ob).2.1.tf = s.tf ∧ (stepStage ib s ob).2.1.idx = s.idx := by
  rcases stepStage_cases ib s ob with h | ⟨c, r, h1, h2, h3, h4, h⟩ |
    ⟨c, q, h1, h2, h3, hq, (⟨outs, ho, h⟩ | ⟨ho, h⟩)⟩ |
    ⟨h1, h2, h3, hq, (⟨e, he, h⟩ | ⟨he, hd, h⟩)⟩ <;> rw [h] <;> exact ⟨rfl, rfl⟩

theorem chainTfs_stepChain (ch : Chain) : ∀ ib : MBuffer,
    chainTfs (stepChain ib ch).2 = chainTfs ch := by
  induction ch with
  | snk st recv => intro ib; rfl
  | stg s ob rest ih =>
      intro ib
      show chainTfs (.stg (stepStage ib s ob).2.1
        (stepChain (stepStage ib s ob).2.2 rest).1
        (stepChain (stepStage ib s ob).2.2 rest).2) = chainTfs (.stg s ob rest)
      simp only [chainTfs, ih]
      rw [(stepStage_tf ib s ob).1]

theorem chainTfs_propChain (e : PErr) (ch : Chain) :
    chainTfs (propChain e ch) = chainTfs ch := by
  induction ch with
  | snk st recv => rfl
  | stg s ob rest ih => simp [propChain, chainTfs, ih]

theorem step_terminal {p : PState} (h : p.result.isSome = true) : step p = p := by
  simp [step, h]

theorem step_propagate {p : PState} {e : PErr} (h : p.result = none)
    (ha : anyFailed p = some e) : step p = propagate e p := by
  simp [step, h, ha]

theorem step_act {p : PState} (h : p.result = none) (ha : anyFailed p = none) :
    step p = stepActTail (stepSrc p) := by
  simp [step, h, ha]

theorem stepSrc_cases (p : PState) :
    (stepSrc p = p) ∨
    (p.srcSt = .active ∧ p.originRem = [] ∧
      stepSrc p = { p with srcSt := .ended, srcBuf := p.srcBuf.markEnd }) ∨
    (∃ c rest, p.srcSt = .active ∧ p.originRem = c :: rest ∧
      p.srcBuf.closed = false ∧
      ((rest = [] ∧ stepSrc p =
          { p with originRem := [], srcSt := .ended,
                   srcBuf := MBuffer.markEnd
                     ({ p.srcBuf with queue := p.srcBuf.queue ++ [c],
                                      pushedLog := p.srcBuf.pushedLog ++ [c] }) }) ∨
       (rest ≠ [] ∧ p.srcBuf.queue.length + 1 < p.srcBuf.capacity ∧
          stepSrc p =
            { p with originRem := rest,
                     srcBuf := { p.srcBuf with
                                 queue := p.srcBuf.queue ++ [c],
                                 pushedLog := p.srcBuf.pushedLog ++ [c] } }) ∨
       (rest ≠ [] ∧ ¬ p.srcBuf.queue.length + 1 < p.srcBuf.capacity ∧
          stepSrc p =
            { p with originRem := rest, srcSt := .paused,
                     pauses := p.pauses + 1,
                     srcBuf := { p.srcBuf with
                                 queue := p.srcBuf.queue ++ [c],
                                 pushedLog := p.srcBuf.pushedLog ++ [c] } }))) := by
  obtain ⟨o0, orem, sst, pa, re, sbuf, ch, res⟩ := p
  cases sst with
  | paused => exact Or.inl rfl
  | ended => exact Or.inl rfl
  | failed e => exact Or.inl rfl
  | active =>
      cases orem with
      | nil => exact Or.inr (Or.inl ⟨rfl, rfl, by simp [stepSrc]⟩)
      | cons c rest =>
          obtain ⟨cap, qu, endd, err, pl, ppl, tt⟩ := sbuf
          cases endd with
          | true => exact Or.inl (by simp [stepSrc, MBuffer.tryPush, MBuffer.closed])
          | false =>
              cases err with
              | some e =>
                  exact Or.inl (by simp [stepSrc, MBuffer.tryPush, MBuffer.closed])
              | none =>
                  cases rest with
                  | nil =>
                      refine Or.inr (Or.inr ⟨c, [], rfl, rfl, rfl,
                        Or.inl ⟨rfl, ?_⟩⟩)
                      simp [stepSrc, MBuffer.tryPush, MBuffer.closed]
                  | cons c2 rest2 =>
                      by_cases hlt : qu.length + 1 < cap
                      · refine Or.inr (Or.inr ⟨c, c2 :: rest2, rfl, rfl, rfl,
                          Or.inr (Or.inl ⟨by simp, hlt, ?_⟩)⟩)
                        simp [stepSrc, MBuffer.tryPush, MBuffer.closed, hlt]
                      · refine Or.inr (Or.inr ⟨c, c2 :: rest2, rfl, rfl, rfl,
                          Or.inr (Or.inr ⟨by simp, hlt, ?_⟩)⟩)
                        simp [stepSrc, MBuffer.tryPush, MBuffer.closed, hlt]

end PipelineCore

namespace PipelineCore

theorem closed_false_parts {b : MBuffer} (h : b.closed = false) :
    b.ended = false ∧ b.err = none := by
  unfold MBuffer.closed at h
  have h2 := Bool.or_eq_false_iff.mp h
  refine ⟨h2.1, ?_⟩
  cases he : b.err with
  | none => rfl
  | some x => rw [he] at h2; simp at h2

theorem markError_err_none {b : MBuffer} (h : b.err = none) (e : PErr) :
    (b.markError e).err = some e := by
  simp [MBuffer.markError, h]

theorem markError_of_some {b : MBuffer} {x : PErr} (h : b.err = some x)
    (e : PErr) : b.markError e = b := by
  simp [MBuffer.markError, h]

theorem bufInv_push {stream : List Chunk} {b : MBuffer} {c : Chunk}
    (h : bufInv stream b) (hcl : b.closed = false)
    (hpre : prefixOf (b.pushedLog ++ [c]) stream)
    (hlen : b.queue.length < b.capacity) :
    bufInv stream
      { b with queue := b.queue ++ [c], pushedLog := b.pushedLog ++ [c] } := by
  obtain ⟨h1, h2, h3, h4, h5, h6⟩ := h
  refine ⟨?_, ?_, h3, ?_, hpre, ?_⟩
  · show b.pushedLog ++ [c] = b.poppedLog ++ (b.queue ++ [c])
    rw [h1, List.append_assoc]
  · show (b.queue ++ [c]).length ≤ b.capacity
    simp only [List.length_append, List.length_cons, List.length_nil]
    omega
  · intro ht
    exact absurd (h4 ht).2 (by rw [hcl]; simp)
  · intro hd
    exact absurd hd (by rw [(closed_false_parts hcl).1]; simp)

theorem bufInv_markEnd {stream : List Chunk} {b : MBuffer}
    (h : bufInv stream b) (hfull : b.pushedLog = stream) :
    bufInv stream b.markEnd := by
  obtain ⟨h1, h2, h3, h4, h5, h6⟩ := h
  refine ⟨h1, h2, h3, ?_, h5, fun _ => hfull⟩
  intro ht
  exact ⟨(h4 ht).1, by simp [MBuffer.markEnd, MBuffer.closed]⟩

theorem bufInv_markError {stream : List Chunk} {b : MBuffer} (e : PErr)
    (h : bufInv stream b) : bufInv stream (b.markError e) := by
  unfold MBuffer.markError
  split
  · exact h
  · obtain ⟨h1, h2, h3, h4, h5, h6⟩ := h
    exact ⟨h1, h2, h3, fun ht => ⟨(h4 ht).1, by simp [MBuffer.closed]⟩, h5, h6⟩

theorem bufInv_pop_chunk {stream : List Chunk} {b : MBuffer} {c : Chunk}
    {q : List Chunk} (h : bufInv stream b) (hq : b.queue = c :: q) :
    bufInv stream { b with queue := q, poppedLog := b.poppedLog ++ [c] } := by
  obtain ⟨h1, h2, h3, h4, h5, h6⟩ := h
  refine ⟨?_, ?_, h3, ?_, h5, h6⟩
  · show b.pushedLog = b.poppedLog ++ [c] ++ q
    rw [h1, hq, List.append_assoc]
    rfl
  · show q.length ≤ b.capacity
    have : q.length ≤ b.queue.length := by rw [hq]; simp
    omega
  · intro ht
    rw [(h4 ht).1] at hq
    cases hq

theorem bufInv_take_terminal {stream : List Chunk} {b : MBuffer}
    (h : bufInv stream b) (hq : b.queue = []) (hcl : b.closed = true) :
    bufInv stream { b with terminalTaken := true } := by
  obtain ⟨h1, h2, h3, h4, h5, h6⟩ := h
  exact ⟨h1, h2, h3, fun _ => ⟨hq, hcl⟩, h5, h6⟩

theorem noFailed_snk {st : StSt} {recv : List Chunk}
    (h : noFailedChain (.snk st recv)) : ∀ e, st ≠ .failed e := by
  intro e he
  unfold noFailedChain firstFailedChain at h
  rw [he] at h
  cases h

theorem noFailed_stg {s : MStage} {ob : MBuffer} {rest : Chain}
    (h : noFailedChain (.stg s ob rest)) :
    (∀ e, s.st ≠ .failed e) ∧ noFailedChain rest := by
  unfold noFailedChain firstFailedChain at h
  cases hst : s.st with
  | failed e => rw [hst] at h; cases h
  | active =>
      rw [hst] at h
      refine ⟨fun e he => ?_, h⟩
      cases he
  | ended =>
      rw [hst] at h
      refine ⟨fun e he => ?_, h⟩
      cases he

theorem errIn_none_of_noFail {res i} {ib : MBuffer} {s : MStage} {ob : MBuffer}
    (hstg : stInv res i ib s ob) (hnfs : ∀ e, s.st ≠ .failed e) :
    s.errIn = none := by
  cases he : s.errIn with
  | none => rfl
  | some c => exact absurd (hstg.2.2.2.2.2.2.2.1 c he).2 (hnfs _)

theorem obErr_none_of_noFail {i} {ib : MBuffer} {s : MStage} {ob : MBuffer}
    (hstg : stInv none i ib s ob) (hnfs : ∀ e, s.st ≠ .failed e) :
    ob.err = none := by
  cases he : ob.err with
  | none => rfl
  | some e =>
      exact absurd (hstg.2.2.2.2.2.2.2.2 rfl e he).2.1 (hnfs _)

theorem chainInv_push_ib {i stream} {ib : MBuffer} {ch : Chain} {c : Chunk}
    (h : chainInv none i stream ib ch) (hnf : noFailedChain ch)
    (hcl : ib.closed = false) (hpre : prefixOf (ib.pushedLog ++ [c]) stream)
    (hlen : ib.queue.length < ib.capacity) :
    chainInv none i stream
      { ib with queue := ib.queue ++ [c], pushedLog := ib.pushedLog ++ [c] } ch := by
  cases ch with
  | snk st recv =>
      obtain ⟨hbuf, hk1, hk2, hk3⟩ := h
      refine ⟨bufInv_push hbuf hcl hpre hlen, hk1, ?_, ?_⟩
      · intro hend
        exact absurd (hk2 hend).2.2 (by simp)
      · intro e he
        exact absurd he (noFailed_snk hnf e)
  | stg s ob rest =>
      obtain ⟨hbuf, hstg, hrest⟩ := h
      obtain ⟨hnfs, hnfr⟩ := noFailed_stg hnf
      obtain ⟨hidx, hS1, hS2, hS3, hS4, hS5, hS6, hS7, hS9⟩ := hstg
      refine ⟨bufInv_push hbuf hcl hpre hlen, ⟨hidx, hS1, hS2, hS3, ?_, hS5, ?_, hS7, hS9⟩, hrest⟩
      · intro hsE
        exact absurd (hS4 hsE).2.2.1 (by rw [(closed_false_parts hcl).1]; simp)
      · intro e he
        exact absurd he (hnfs e)

theorem chainInv_markEnd_ib {i stream} {ib : MBuffer} {ch : Chain}
    (h : chainInv none i stream ib ch) (hnf : noFailedChain ch)
    (hend : ib.ended = false) (hfull : ib.pushedLog = stream) :
    chainInv none i stream ib.markEnd ch := by
  cases ch with
  | snk st recv =>
      obtain ⟨hbuf, hk1, hk2, hk3⟩ := h
      refine ⟨bufInv_markEnd hbuf hfull, hk1, ?_, ?_⟩
      · intro hendS
        exact absurd (hk2 hendS).2.2 (by simp)
      · intro e he
        exact absurd he (noFailed_snk hnf e)
  | stg s ob rest =>
      obtain ⟨hbuf, hstg, hrest⟩ := h
      obtain ⟨hnfs, hnfr⟩ := noFailed_stg hnf
      obtain ⟨hidx, hS1, hS2, hS3, hS4, hS5, hS6, hS7, hS9⟩ := hstg
      refine ⟨bufInv_markEnd hbuf hfull,
        ⟨hidx, hS1, hS2, hS3, ?_, hS5, ?_, hS7, hS9⟩, hrest⟩
      · intro hsE
        exact absurd (hS4 hsE).2.2.1 (by rw [hend]; simp)
      · intro e he
        exact absurd he (hnfs e)

theorem chainInv_markError_ib {i stream} {ib : MBuffer} {ch : Chain} (e : PErr)
    (h : chainInv none i stream ib ch) (hnf : noFailedChain ch) :
    chainInv none i stream (ib.markError e) ch := by
  cases ch with
  | snk st recv =>
      obtain ⟨hbuf, hk1, hk2, hk3⟩ := h
      have hq : (ib.markError e).queue = ib.queue := by
        unfold MBuffer.markError; split <;> rfl
      have hpl : (ib.markError e).poppedLog = ib.poppedLog := by
        unfold MBuffer.markError; split <;> rfl
      have hed : (ib.markError e).ended = ib.ended := by
        unfold MBuffer.markError; split <;> rfl
      refine ⟨bufInv_markError e hbuf, ?_, ?_, ?_⟩
      · rw [hpl]; exact hk1
      · intro hendS
        exact absurd (hk2 hendS).2.2 (by simp)
      · intro x hx
        exact absurd hx (noFailed_snk hnf x)
  | stg s ob rest =>
      obtain ⟨hbuf, hstg, hrest⟩ := h
      obtain ⟨hnfs, hnfr⟩ := noFailed_stg hnf
      obtain ⟨hidx, hS1, hS2, hS3, hS4, hS5, hS6, hS7, hS9⟩ := hstg
      have hq : (ib.markError e).queue = ib.queue := by
        unfold MBuffer.markError; split <;> rfl
      have hpl : (ib.markError e).poppedLog = ib.poppedLog := by
        unfold MBuffer.markError; split <;> rfl
      have hed : (ib.markError e).ended = ib.ended := by
        unfold MBuffer.markError; split <;> rfl
      refine ⟨bufInv_markError e hbuf,
        ⟨hidx, ?_, hS2, hS3, ?_, hS5, ?_, hS7, hS9⟩, hrest⟩
      · rw [hpl]; exact hS1
      · intro hsE
        obtain ⟨hp, hei, hie, hiq, hoe⟩ := hS4 hsE
        exact ⟨hp, hei, by rw [hed]; exact hie, by rw [hq]; exact hiq, hoe⟩
      · intro x hx
        exact absurd hx (hnfs x)

end PipelineCore

namespace PipelineCore

theorem closed_of_err {b : MBuffer} {e : PErr} (h : b.err = some e) :
    b.closed = true := by
  unfold MBuffer.closed
  rw [h]
  simp

theorem closed_of_ended {b : MBuffer} (h : b.ended = true) : b.closed = true := by
  unfold MBuffer.closed
  rw [h]
  simp

theorem markError_pushedLog (b : MBuffer) (e : PErr) :
    (b.markError e).pushedLog = b.pushedLog := by
  unfold MBuffer.markError
  split <;> rfl

theorem markError_ended (b : MBuffer) (e : PErr) :
    (b.markError e).ended = b.ended := by
  unfold MBuffer.markError
  split <;> rfl

theorem stepChain_snk (ib : MBuffer) (st : StSt) (recv : List Chunk) :
    stepChain ib (.snk st recv) =
      ((stepSink ib st recv).1,
       .snk (stepSink ib st recv).2.1 (stepSink ib st recv).2.2) := rfl

theorem stepChain_stg (ib : MBuffer) (s : MStage) (ob : MBuffer) (rest : Chain) :
    stepChain ib (.stg s ob rest) =
      ((stepStage ib s ob).1,
       .stg (stepStage ib s ob).2.1
         (stepChain (stepStage ib s ob).2.2 rest).1
         (stepChain (stepStage ib s ob).2.2 rest).2) := rfl

theorem chainInv_stepChain : ∀ (ch : Chain) (i : Nat) (stream : List Chunk)
    (ib : MBuffer),
    chainInv none i stream ib ch → noFailedChain ch →
    ∀ res2 : Option PResult, resOk res2 →
      (sinkStOf (stepChain ib ch).2 = .ended → res2 = some .completed) →
      chainInv res2 i stream (stepChain ib ch).1 (stepChain ib ch).2 := by
  intro ch
  induction ch with
  | snk st recv =>
      intro i stream ib h hnf res2 hok hse
      obtain ⟨hbuf, hk1, hk2, hk3⟩ := h
      rw [stepChain_snk] at hse ⊢
      simp only [sinkStOf] at hse
      rcases stepSink_cases ib st recv with hE | ⟨c, q, hst, hq, hE⟩ |
        ⟨hst, hq, (⟨e, he, hE⟩ | ⟨he, hd, hE⟩)⟩ <;> rw [hE] at hse ⊢ <;>
        simp only [] at hse ⊢
      · refine ⟨hbuf, hk1, ?_, ?_⟩
        · intro hend
          exact ⟨(hk2 hend).1, (hk2 hend).2.1, hse hend⟩
        · intro e he
          exact absurd he (noFailed_snk hnf e)
      · refine ⟨bufInv_pop_chunk hbuf hq, ?_, ?_, ?_⟩
        · show recv ++ [c] = ib.poppedLog ++ [c]
          rw [hk1]
        · intro hend
          cases hend
        · intro e he
          cases he
      · refine ⟨bufInv_take_terminal hbuf hq (closed_of_err he), ?_, ?_, ?_⟩
        · exact hk1
        · intro hend
          cases hend
        · intro x hx
          cases hx
          exact Or.inl he
      · refine ⟨bufInv_take_terminal hbuf hq (closed_of_ended hd), ?_, ?_, ?_⟩
        · exact hk1
        · intro _
          exact ⟨hd, hq, hse trivial⟩
        · intro x hx
          cases hx
  | stg s ob rest ih =>
      intro i stream ib h hnf res2 hok hse
      obtain ⟨hbuf, hstg, hrest⟩ := h
      obtain ⟨hnfs, hnfr⟩ := noFailed_stg hnf
      have herrIn : s.errIn = none := errIn_none_of_noFail hstg hnfs
      have hobErr : ob.err = none := obErr_none_of_noFail hstg hnfs
      obtain ⟨hidx, hS1, hS2, hS3, hS4, hS5, hS6, hS7, hS9⟩ := hstg
      rw [stepChain_stg] at hse ⊢
      simp only [sinkStOf] at hse
      rcases stepStage_cases ib s ob with hE | ⟨c, r, hsA, hp, hlt, hcl, hE⟩ |
        ⟨c, q, hsA, hp, hlt, hq, (⟨outs, htf, hE⟩ | ⟨htf, hE⟩)⟩ |
        ⟨hsA, hp, hlt, hq, (⟨e, he, hE⟩ | ⟨he, hd, hE⟩)⟩
      · -- the stage takes no action this turn
        rw [hE] at hse ⊢
        simp only [] at hse ⊢
        have hch := ih (i + 1) (applyTf s.tf stream) ob hrest hnfr res2 hok hse
        obtain ⟨hePL, heCap, heErr, heEnd, heQ⟩ := stepChain_effect ob rest
        refine ⟨hbuf, ⟨hidx, hS1, hS2, ?_, ?_, ?_, ?_, hS7, ?_⟩, hch⟩
        · rw [hS3, hePL]
        · intro hsE
          obtain ⟨w1, w2, w3, w4, w5⟩ := hS4 hsE
          exact ⟨w1, w2, w3, w4, by rw [heEnd]; exact w5⟩
        · intro _ hoe
          rw [heEnd] at hoe
          exact hS5 (Or.inl rfl) hoe
        · intro e he
          exact absurd he (hnfs e)
        · intro hr2 e he
          rw [heErr] at he
          rw [he] at hobErr
          cases hobErr
      · -- the stage pushes one pending chunk downstream
        have hcons : prefixOf s.consumed stream := by
          have h1 : prefixOf s.consumed ib.pushedLog := by
            rw [hbuf.1, hS1, herrIn]
            exact ⟨ib.queue, by simp⟩
          exact prefixOf_trans h1 hbuf.2.2.2.2.1
        have happ : prefixOf (applyTfAll s.tf s.consumed)
            (applyTf s.tf stream) := applyTfAll_prefixOf_applyTf hcons hS2
        have hpre : prefixOf (ob.pushedLog ++ [c]) (applyTf s.tf stream) := by
          refine prefixOf_trans ⟨r, ?_⟩ happ
          rw [hS3, hp, List.append_assoc]
          rfl
        have hch := ih (i + 1) (applyTf s.tf stream)
          { ob with queue := ob.queue ++ [c], pushedLog := ob.pushedLog ++ [c] }
          (chainInv_push_ib hrest hnfr hcl hpre hlt) hnfr res2 hok (by
            rw [hE] at hse
            exact hse)
        rw [hE] at hse ⊢
        simp only [] at hse ⊢
        obtain ⟨hePL, heCap, heErr, heEnd, heQ⟩ := stepChain_effect
          { ob with queue := ob.queue ++ [c], pushedLog := ob.pushedLog ++ [c] } rest
        have hobEnd : ob.ended = false := by
          cases hoe : ob.ended
          · rfl
          · exact absurd (hS5 (Or.inl rfl) hoe) (by rw [hsA]; intro hx; cases hx)
        refine ⟨hbuf, ⟨hidx, hS1, hS2, ?_, ?_, ?_, ?_, ?_, ?_⟩, hch⟩
        · show applyTfAll s.tf s.consumed =
            (stepChain { ob with queue := ob.queue ++ [c],
                                 pushedLog := ob.pushedLog ++ [c] }
              rest).1.pushedLog ++ r
          rw [hePL]
          show applyTfAll s.tf s.consumed = ob.pushedLog ++ [c] ++ r
          rw [hS3, hp, List.append_assoc]
          rfl
        · intro hsE
          rw [hsA] at hsE
          cases hsE
        · intro _ hoe
          rw [heEnd] at hoe
          exact absurd hoe (by rw [hobEnd]; simp)
        · intro e he
          rw [hsA] at he
          cases he
        · intro c2 hc2
          rw [herrIn] at hc2
          cases hc2
        · intro hr2 e he
          rw [heErr] at he
          rw [he] at hobErr
          cases hobErr
      · -- the stage pulls a chunk and transforms it successfully
        have hch := ih (i + 1) (applyTf s.tf stream) ob hrest hnfr res2 hok (by
          rw [hE] at hse
          exact hse)
        rw [hE] at hse ⊢
        simp only [] at hse ⊢
        obtain ⟨hePL, heCap, heErr, heEnd, heQ⟩ := stepChain_effect ob rest
        have hobEnd : ob.ended = false := by
          cases hoe : ob.ended
          · rfl
          · exact absurd (hS5 (Or.inl rfl) hoe) (by rw [hsA]; intro hx; cases hx)
        refine ⟨bufInv_pop_chunk hbuf hq, ⟨hidx, ?_, ?_, ?_, ?_, ?_, ?_, ?_, ?_⟩, hch⟩
        · show ib.poppedLog ++ [c] = s.consumed ++ [c] ++ s.errIn.toList
          rw [hS1, herrIn]
          simp
        · intro x hx
          rcases List.mem_append.mp hx with hx1 | hx2
          · exact hS2 x hx1
          · rw [List.mem_singleton.mp hx2, htf]
            rfl
        · show applyTfAll s.tf (s.consumed ++ [c]) =
            (stepChain ob rest).1.pushedLog ++ outs
          rw [applyTfAll_append, hePL, hS3, hp]
          simp [applyTfAll, htf]
        · intro hsE
          rw [hsA] at hsE
          cases hsE
        · intro _ hoe
          rw [heEnd] at hoe
          exact absurd hoe (by rw [hobEnd]; simp)
        · intro e he
          rw [hsA] at he
          cases he
        · intro c2 hc2
          rw [herrIn] at hc2
          cases hc2
        · intro hr2 e he
          rw [heErr] at he
          rw [he] at hobErr
          cases hobErr
      · -- the stage pulls a chunk and its step function raises
        have hch := ih (i + 1) (applyTf s.tf stream)
          (ob.markError (.transformError s.idx))
          (chainInv_markError_ib _ hrest hnfr) hnfr res2 hok (by
            rw [hE] at hse
            exact hse)
        rw [hE] at hse ⊢
        simp only [] at hse ⊢
        obtain ⟨hePL, heCap, heErr, heEnd, heQ⟩ := stepChain_effect
          (ob.markError (.transformError s.idx)) rest
        have hobEnd : ob.ended = false := by
          cases hoe : ob.ended
          · rfl
          · exact absurd (hS5 (Or.inl rfl) hoe) (by rw [hsA]; intro hx; cases hx)
        refine ⟨bufInv_pop_chunk hbuf hq, ⟨hidx, ?_, hS2, ?_, ?_, ?_, ?_, ?_, ?_⟩, hch⟩
        · show ib.poppedLog ++ [c] = s.consumed ++ [c]
          rw [hS1, herrIn]
          simp
        · show applyTfAll s.tf s.consumed =
            (stepChain (ob.markError (.transformError s.idx)) rest).1.pushedLog
              ++ s.pending
          rw [hePL, markError_pushedLog]
          exact hS3
        · intro hsE
          cases hsE
        · intro _ hoe
          rw [heEnd, markError_ended] at hoe
          exact absurd hoe (by rw [hobEnd]; simp)
        · intro e he
          cases he
          exact Or.inl rfl
        · intro c2 hc2
          cases hc2
          exact ⟨htf, by rw [hidx]⟩
        · intro hr2 e he
          rw [heErr, markError_err_none hobErr] at he
          cases he
          exact ⟨by rw [hidx], rfl, rfl⟩
      · -- the stage pulls the error marker from its input buffer
        have hch := ih (i + 1) (applyTf s.tf stream) ob hrest hnfr res2 hok (by
          rw [hE] at hse
          exact hse)
        rw [hE] at hse ⊢
        simp only [] at hse ⊢
        obtain ⟨hePL, heCap, heErr, heEnd, heQ⟩ := stepChain_effect ob rest
        have hobEnd : ob.ended = false := by
          cases hoe : ob.ended
          · rfl
          · exact absurd (hS5 (Or.inl rfl) hoe) (by rw [hsA]; intro hx; cases hx)
        refine ⟨bufInv_take_terminal hbuf hq (closed_of_err he),
          ⟨hidx, hS1, hS2, ?_, ?_, ?_, ?_, ?_, ?_⟩, hch⟩
        · rw [hS3, hePL]
        · intro hsE
          cases hsE
        · intro _ hoe
          rw [heEnd] at hoe
          exact absurd hoe (by rw [hobEnd]; simp)
        · intro x hx
          cases hx
          exact Or.inr (Or.inl he)
        · intro c2 hc2
          rw [herrIn] at hc2
          cases hc2
        · intro hr2 x hx
          rw [heErr] at hx
          rw [hx] at hobErr
          cases hobErr
      · -- the stage pulls end-of-stream: flush
        have hconsAll : s.consumed = stream := by
          have hpop : ib.poppedLog = ib.pushedLog := by
            rw [hbuf.1, hq]
            simp
          rw [← hbuf.2.2.2.2.2 hd, ← hpop, hS1, herrIn]
          simp
        have hfull : ob.pushedLog = applyTf s.tf stream := by
          have h1 : applyTf s.tf stream = applyTfAll s.tf stream := by
            apply applyTf_eq_all
            intro x hx
            exact hS2 x (by rw [hconsAll]; exact hx)
          rw [h1, ← hconsAll, hS3, hp]
          simp
        have hobEnd : ob.ended = false := by
          cases hoe : ob.ended
          · rfl
          · exact absurd (hS5 (Or.inl rfl) hoe) (by rw [hsA]; intro hx; cases hx)
        have hch := ih (i + 1) (applyTf s.tf stream) ob.markEnd
          (chainInv_markEnd_ib hrest hnfr hobEnd hfull) hnfr res2 hok (by
            rw [hE] at hse
            exact hse)
        rw [hE] at hse ⊢
        simp only [] at hse ⊢
        obtain ⟨hePL, heCap, heErr, heEnd, heQ⟩ := stepChain_effect ob.markEnd rest
        refine ⟨bufInv_take_terminal hbuf hq (closed_of_ended hd),
          ⟨hidx, hS1, hS2, ?_, ?_, ?_, ?_, ?_, ?_⟩, hch⟩
        · show applyTfAll s.tf s.consumed =
            (stepChain ob.markEnd rest).1.pushedLog ++ s.pending
          rw [hePL]
          show applyTfAll s.tf s.consumed = ob.pushedLog ++ s.pending
          exact hS3
        · intro _
          refine ⟨hp, herrIn, hd, hq, ?_⟩
          rw [heEnd]
          rfl
        · intro _ _
          rfl
        · intro e he
          cases he
        · intro c2 hc2
          rw [herrIn] at hc2
          cases hc2
        · intro hr2 x hx
          rw [heErr] at hx
          have : (MBuffer.markEnd ob).err = ob.err := rfl
          rw [this] at hx
          rw [hx] at hobErr
          cases hobErr

end PipelineCore

namespace PipelineCore

theorem markError_poppedLog (b : MBuffer) (e : PErr) :
    (b.markError e).poppedLog = b.poppedLog := by
  unfold MBuffer.markError
  split <;> rfl

theorem markError_queue (b : MBuffer) (e : PErr) :
    (b.markError e).queue = b.queue := by
  unfold MBuffer.markError
  split <;> rfl

theorem markError_err_keep {b : MBuffer} {y : PErr} (h : b.err = some y)
    (e : PErr) : (b.markError e).err = some y := by
  rw [markError_of_some h]
  exact h

theorem bufInv_empty (stream : List Chunk) (cap : Nat) :
    bufInv stream (emptyBuf cap) := by
  refine ⟨rfl, by simp [emptyBuf], by simp [emptyBuf], ?_, ⟨stream, rfl⟩, ?_⟩
  · intro ht
    simp [emptyBuf] at ht
  · intro hd
    simp [emptyBuf] at hd

theorem chainInv_mkChain : ∀ (tfs : List Tf) (i : Nat) (stream : List Chunk)
    (caps : List Nat) (cap : Nat),
    chainInv none i stream (emptyBuf cap) (mkChain i tfs caps) := by
  intro tfs
  induction tfs with
  | nil =>
      intro i stream caps cap
      refine ⟨bufInv_empty stream cap, rfl, ?_, ?_⟩
      · intro hend
        cases hend
      · intro e he
        cases he
  | cons tf rest ih =>
      intro i stream caps cap
      refine ⟨bufInv_empty stream cap,
        ⟨rfl, rfl, ?_, rfl, ?_, ?_, ?_, ?_, ?_⟩, ih (i + 1) _ caps _⟩
      · intro c hc
        simp at hc
      · intro hend
        cases hend
      · intro _ hoe
        simp [emptyBuf] at hoe
      · intro e he
        cases he
      · intro c hc
        cases hc
      · intro _ e he
        simp [emptyBuf] at he

theorem inv_init (origin : List Chunk) (tfs : List Tf) (caps : List Nat) :
    inv (init origin tfs caps) := by
  refine ⟨rfl, ?_, ?_, ?_, ?_, ?_, ?_, ?_, ?_, ?_⟩
  · intro _
    simp [init, emptyBuf]
  · intro h
    cases h
  · intro h
    cases h
  · intro h
    simp [init, emptyBuf] at h
  · intro _
    rfl
  · intro _
    rfl
  · intro h
    cases h
  · intro e h
    cases h
  · exact chainInv_mkChain tfs 0 origin caps _

theorem anyFailed_none_parts {p : PState} (h : anyFailed p = none) :
    srcFailedErr p.srcSt = none ∧ noFailedChain p.chain := by
  unfold anyFailed at h
  cases hs : srcFailedErr p.srcSt with
  | some e => rw [hs] at h; cases h
  | none => rw [hs] at h; exact ⟨rfl, h⟩

theorem firstFailed_snk_red (st : StSt) (recv : List Chunk) :
    firstFailedChain (.snk st recv) =
      (match st with
       | .failed x => some x
       | _ => none) := rfl

theorem firstFailed_stg_red (s : MStage) (ob : MBuffer) (rest : Chain) :
    firstFailedChain (.stg s ob rest) =
      (match s.st with
       | .failed x => some x
       | _ => firstFailedChain rest) := rfl

theorem chainHasWit_propChain (e x : PErr) : ∀ (ch : Chain),
    chainHasWit e ch → chainHasWit e (propChain x ch) := by
  intro ch
  induction ch with
  | snk st recv =>
      intro h
      exact h.elim
  | stg s ob rest ih =>
      intro h
      rcases h with ⟨he, hi⟩ | h
      · exact Or.inl ⟨he, hi⟩
      · exact Or.inr (ih h)

theorem firstFailed_wit : ∀ (ch : Chain) (i : Nat) (stream : List Chunk)
    (ib : MBuffer) (e : PErr),
    chainInv none i stream ib ch → ib.err = none →
    firstFailedChain ch = some e → chainHasWit e ch := by
  intro ch
  induction ch with
  | snk st recv =>
      intro i stream ib e h hib hff
      obtain ⟨hbuf, hk1, hk2, hk3⟩ := h
      rw [firstFailed_snk_red] at hff
      cases st with
      | failed x =>
          rcases hk3 x rfl with hx | ⟨hne, _⟩
          · rw [hx] at hib
            cases hib
          · exact absurd rfl hne
      | active => cases hff
      | ended => cases hff
  | stg s ob rest ih =>
      intro i stream ib e h hib hff
      obtain ⟨hbuf, hstg, hrest⟩ := h
      have hidx := hstg.1
      have hS6 := hstg.2.2.2.2.2.2.1
      have hS7 := hstg.2.2.2.2.2.2.2.1
      have hS9 := hstg.2.2.2.2.2.2.2.2
      rw [firstFailed_stg_red] at hff
      generalize hsst : s.st = sst at hff
      cases sst with
      | failed x =>
          have hxe : x = e := by
            simpa using hff
          subst hxe
          rcases hS6 x hsst with hei | hin | ⟨hne, _⟩
          · refine Or.inl ⟨?_, hei⟩
            obtain ⟨c, hc⟩ := Option.isSome_iff_exists.mp hei
            have := (hS7 c hc).2
            rw [hsst] at this
            cases this
            rw [hidx]
          · rw [hin] at hib
            cases hib
          · exact absurd rfl hne
      | active =>
          have hobErr : ob.err = none := by
            cases hoe : ob.err with
            | none => rfl
            | some y =>
                have hbad := (hS9 rfl y hoe).2.1
                rw [hsst] at hbad
                cases hbad
          exact Or.inr (ih (i + 1) (applyTf s.tf stream) ob e hrest hobErr hff)
      | ended =>
          have hobErr : ob.err = none := by
            cases hoe : ob.err with
            | none => rfl
            | some y =>
                have hbad := (hS9 rfl y hoe).2.1
                rw [hsst] at hbad
                cases hbad
          exact Or.inr (ih (i + 1) (applyTf s.tf stream) ob e hrest hobErr hff)

end PipelineCore

namespace PipelineCore

theorem cancelSt_not_ended (st : StSt) : cancelSt st ≠ .ended := by
  cases st <;> simp [cancelSt]

theorem cancelSrcSt_failed (st : SrcSt) : ∃ x, cancelSrcSt st = .failed x := by
  cases st with
  | failed e => exact ⟨e, rfl⟩
  | active => exact ⟨.cancelled, rfl⟩
  | paused => exact ⟨.cancelled, rfl⟩
  | ended => exact ⟨.cancelled, rfl⟩

theorem chainInv_propChain (e r : PErr) : ∀ (ch : Chain) (i : Nat)
    (stream : List Chunk) (ib : MBuffer),
    chainInv none i stream ib ch →
    chainInv (some (.failed r)) i stream (ib.markError e) (propChain e ch) := by
  intro ch
  induction ch with
  | snk st recv =>
      intro i stream ib h
      obtain ⟨hbuf, hk1, hk2, hk3⟩ := h
      refine ⟨bufInv_markError e hbuf, ?_, ?_, ?_⟩
      · rw [markError_poppedLog]
        exact hk1
      · intro hend
        exact absurd hend (cancelSt_not_ended st)
      · intro x hx
        cases st with
        | failed y =>
            have hyx : y = x := by simpa [cancelSt] using hx
            subst hyx
            rcases hk3 y rfl with herr | ⟨hne, _⟩
            · exact Or.inl (markError_err_keep herr e)
            · exact absurd rfl hne
        | active =>
            have hxc : x = .cancelled := by simpa [cancelSt] using hx.symm
            exact Or.inr ⟨by simp, hxc⟩
        | ended =>
            have hxc : x = .cancelled := by simpa [cancelSt] using hx.symm
            exact Or.inr ⟨by simp, hxc⟩
  | stg s ob rest ih =>
      intro i stream ib h
      obtain ⟨hbuf, hstg, hrest⟩ := h
      obtain ⟨hidx, hS1, hS2, hS3, hS4, hS5, hS6, hS7, hS9⟩ := hstg
      refine ⟨bufInv_markError e hbuf,
        ⟨hidx, ?_, hS2, ?_, ?_, ?_, ?_, ?_, ?_⟩,
        ih (i + 1) (applyTf s.tf stream) ob hrest⟩
      · rw [markError_poppedLog]
        exact hS1
      · rw [markError_pushedLog]
        exact hS3
      · intro hend
        exact absurd hend (cancelSt_not_ended s.st)
      · intro hok
        rcases hok with hq | hq <;> simp at hq
      · intro x hx
        generalize hcs : s.st = sst at hx
        cases sst with
        | failed y =>
            have hyx : y = x := by simpa [cancelSt] using hx
            subst hyx
            rcases hS6 y hcs with h1 | h2 | ⟨hne, _⟩
            · exact Or.inl h1
            · exact Or.inr (Or.inl (markError_err_keep h2 e))
            · exact absurd rfl hne
        | active =>
            have hxc : x = .cancelled := by simpa [cancelSt] using hx.symm
            exact Or.inr (Or.inr ⟨by simp, hxc⟩)
        | ended =>
            have hxc : x = .cancelled := by simpa [cancelSt] using hx.symm
            exact Or.inr (Or.inr ⟨by simp, hxc⟩)
      · intro c hc
        obtain ⟨htf, hstf⟩ := hS7 c hc
        refine ⟨htf, ?_⟩
        show cancelSt s.st = .failed (.transformError i)
        rw [hstf]
        rfl
      · intro hq
        cases hq

theorem inv_propagate {p : PState} {e : PErr} (h : inv p) (hres : p.result = none)
    (ha : anyFailed p = some e) : inv (propagate e p) := by
  obtain ⟨h1, h2, h3, h4, h5, h6, h7, h8, h9, h10⟩ := h
  rw [hres] at h10
  have hsrcE : p.srcBuf.err = none := h6 (Or.inl hres)
  have hsrcF : srcFailedErr p.srcSt = none := h7 (Or.inl hres)
  have hffc : firstFailedChain p.chain = some e := by
    unfold anyFailed at ha
    rw [hsrcF] at ha
    exact ha
  have hwit : chainHasWit e p.chain :=
    firstFailed_wit p.chain 0 p.origin0 p.srcBuf e h10 hsrcE hffc
  obtain ⟨xf, hxf⟩ := cancelSrcSt_failed p.srcSt
  unfold propagate
  refine ⟨?_, ?_, ?_, ?_, ?_, ?_, ?_, ?_, ?_, ?_⟩
  · show (p.srcBuf.markError e).pushedLog ++ p.originRem = p.origin0
    rw [markError_pushedLog]
    exact h1
  · intro hx
    rw [hxf] at hx
    cases hx
  · intro hx
    rw [hxf] at hx
    cases hx
  · intro hx
    rw [hxf] at hx
    cases hx
  · intro _
    constructor
    · rw [hxf]
      intro hq
      cases hq
    · rw [hxf]
      intro hq
      cases hq
  · intro hok
    rcases hok with hq | hq <;> simp at hq
  · intro hok
    rcases hok with hq | hq <;> simp at hq
  · intro hcomp
    simp at hcomp
  · intro x hx
    have hex : e = x := by simpa using hx
    subst hex
    exact chainHasWit_propChain e e p.chain hwit
  · exact chainInv_propChain e e p.chain 0 p.origin0 p.srcBuf h10

end PipelineCore

namespace PipelineCore

theorem inv_actTail {p1 : PState} (hres : p1.result = none)
    (hnf : noFailedChain p1.chain)
    (h1 : p1.srcBuf.pushedLog ++ p1.originRem = p1.origin0)
    (h2 : p1.srcSt = .active → p1.srcBuf.queue.length < p1.srcBuf.capacity)
    (h3 : p1.srcSt = .paused →
      p1.srcBuf.queue.length = p1.srcBuf.capacity ∧ p1.originRem ≠ [])
    (h4 : p1.srcSt = .ended → p1.originRem = [])
    (h5 : p1.srcBuf.ended = true → p1.srcSt ≠ .active ∧ p1.srcSt ≠ .paused)
    (h6 : p1.srcBuf.err = none)
    (h7 : srcFailedErr p1.srcSt = none)
    (hch : chainInv none 0 p1.origin0 p1.srcBuf p1.chain) :
    inv (stepActTail p1) := by
  obtain ⟨heP, heC, heE, heD, heQ⟩ := stepChain_effect p1.srcBuf p1.chain
  have hs2 : (if srcResumes p1 then SrcSt.active else p1.srcSt) = .active →
      (stepChain p1.srcBuf p1.chain).1.queue.length <
        (stepChain p1.srcBuf p1.chain).1.capacity := by
    intro hx
    rw [heC]
    by_cases hr : srcResumes p1
    · obtain ⟨hpz, hlt, hcap⟩ := hr
      omega
    · rw [if_neg hr] at hx
      have hlt1 := h2 hx
      rcases heQ with hq | ⟨c, hq⟩
      · rw [hq]
        exact hlt1
      · have hlt2 : (stepChain p1.srcBuf p1.chain).1.queue.length <
            p1.srcBuf.queue.length := by
          rw [hq]
          simp
        omega
  have hs3 : (if srcResumes p1 then SrcSt.active else p1.srcSt) = .paused →
      (stepChain p1.srcBuf p1.chain).1.queue.length =
        (stepChain p1.srcBuf p1.chain).1.capacity ∧ p1.originRem ≠ [] := by
    intro hx
    by_cases hr : srcResumes p1
    · rw [if_pos hr] at hx
      cases hx
    · rw [if_neg hr] at hx
      obtain ⟨hcap1, hrem⟩ := h3 hx
      refine ⟨?_, hrem⟩
      rw [heC]
      rcases heQ with hq | ⟨c, hq⟩
      · rw [hq]
        exact hcap1
      · exfalso
        apply hr
        exact ⟨hx, by rw [hq]; simp, hcap1⟩
  have hs4 : (if srcResumes p1 then SrcSt.active else p1.srcSt) = .ended →
      p1.originRem = [] := by
    intro hx
    by_cases hr : srcResumes p1
    · rw [if_pos hr] at hx
      cases hx
    · rw [if_neg hr] at hx
      exact h4 hx
  have hs5 : (stepChain p1.srcBuf p1.chain).1.ended = true →
      (if srcResumes p1 then SrcSt.active else p1.srcSt) ≠ .active ∧
      (if srcResumes p1 then SrcSt.active else p1.srcSt) ≠ .paused := by
    intro hx
    rw [heD] at hx
    obtain ⟨ha5, hp5⟩ := h5 hx
    by_cases hr : srcResumes p1
    · exact absurd hr.1 hp5
    · rw [if_neg hr]
      exact ⟨ha5, hp5⟩
  have hs7 : srcFailedErr (if srcResumes p1 then SrcSt.active else p1.srcSt) =
      none := by
    by_cases hr : srcResumes p1
    · rw [if_pos hr]
      rfl
    · rw [if_neg hr]
      exact h7
  by_cases hsnk : sinkStOf (stepChain p1.srcBuf p1.chain).2 = .ended
  · have hstep : stepActTail p1 =
        { p1 with srcBuf := (stepChain p1.srcBuf p1.chain).1,
                  chain := (stepChain p1.srcBuf p1.chain).2,
                  srcSt := if srcResumes p1 then .active else p1.srcSt,
                  resumes := if srcResumes p1 then p1.resumes + 1 else p1.resumes,
                  result := some .completed } := by
      unfold stepActTail
      rw [if_pos hsnk]
    rw [hstep]
    have hchain2 := chainInv_stepChain p1.chain 0 p1.origin0 p1.srcBuf hch hnf
      (some .completed) (Or.inr rfl) (fun _ => rfl)
    refine ⟨?_, hs2, hs3, hs4, hs5, ?_, ?_, ?_, ?_, hchain2⟩
    · show (stepChain p1.srcBuf p1.chain).1.pushedLog ++ p1.originRem = p1.origin0
      rw [heP]
      exact h1
    · intro _
      rw [heE]
      exact h6
    · intro _
      exact hs7
    · intro _
      exact hsnk
    · intro x hx
      simp at hx
  · have hstep : stepActTail p1 =
        { p1 with srcBuf := (stepChain p1.srcBuf p1.chain).1,
                  chain := (stepChain p1.srcBuf p1.chain).2,
                  srcSt := if srcResumes p1 then .active else p1.srcSt,
                  resumes := if srcResumes p1 then p1.resumes + 1 else p1.resumes } := by
      unfold stepActTail
      rw [if_neg hsnk]
    rw [hstep]
    have hchain2 := chainInv_stepChain p1.chain 0 p1.origin0 p1.srcBuf hch hnf
      none (Or.inl rfl) (fun hx => absurd hx hsnk)
    refine ⟨?_, hs2, hs3, hs4, hs5, ?_, ?_, ?_, ?_, ?_⟩
    · show (stepChain p1.srcBuf p1.chain).1.pushedLog ++ p1.originRem = p1.origin0
      rw [heP]
      exact h1
    · intro _
      rw [heE]
      exact h6
    · intro _
      exact hs7
    · intro hcomp
      rw [hres] at hcomp
      cases hcomp
    · intro x hx
      rw [hres] at hx
      cases hx
    · show chainInv p1.result 0 p1.origin0 (stepChain p1.srcBuf p1.chain).1
        (stepChain p1.srcBuf p1.chain).2
      rw [hres]
      exact hchain2

theorem inv_act {p : PState} (h : inv p) (hres : p.result = none)
    (ha : anyFailed p = none) : inv (stepActTail (stepSrc p)) := by
  obtain ⟨hsf, hnf⟩ := anyFailed_none_parts ha
  obtain ⟨h1, h2, h3, h4, h5, h6, h7, h8, h9, h10⟩ := h
  rw [hres] at h10
  have hsE : p.srcBuf.err = none := h6 (Or.inl hres)
  rcases stepSrc_cases p with hE | ⟨hsA, hremE, hE⟩ | ⟨c, rest, hsA, hrem, hcl, hsub⟩
  · rw [hE]
    exact inv_actTail hres hnf h1 h2 h3 h4 h5 hsE hsf h10
  · rw [hE]
    have hend0 : p.srcBuf.ended = false := by
      cases hd : p.srcBuf.ended
      · rfl
      · exact absurd hsA (h5 hd).1
    have hfull : p.srcBuf.pushedLog = p.origin0 := by
      rw [hremE] at h1
      simpa using h1
    refine inv_actTail hres hnf ?_ ?_ ?_ ?_ ?_ ?_ ?_ ?_
    · show p.srcBuf.markEnd.pushedLog ++ p.originRem = p.origin0
      exact h1
    · intro hx
      cases hx
    · intro hx
      cases hx
    · intro _
      exact hremE
    · intro _
      refine ⟨?_, ?_⟩ <;> intro hx <;> cases hx
    · exact hsE
    · rfl
    · exact chainInv_markEnd_ib h10 hnf hend0 hfull
  · have hlen : p.srcBuf.queue.length < p.srcBuf.capacity := h2 hsA
    have hend0 : p.srcBuf.ended = false := by
      cases hd : p.srcBuf.ended
      · rfl
      · exact absurd hsA (h5 hd).1
    rw [hrem] at h1
    have hpre : prefixOf (p.srcBuf.pushedLog ++ [c]) p.origin0 := by
      refine ⟨rest, ?_⟩
      rw [List.append_assoc]
      exact h1
    have hchainP := chainInv_push_ib h10 hnf hcl hpre hlen
    rcases hsub with ⟨hrestE, hE⟩ | ⟨hrestNE, hlt2, hE⟩ | ⟨hrestNE, hnlt, hE⟩
    · rw [hE]
      have hfullP : p.srcBuf.pushedLog ++ [c] = p.origin0 := by
        rw [hrestE] at h1
        simpa using h1
      refine inv_actTail hres hnf ?_ ?_ ?_ ?_ ?_ ?_ ?_ ?_
      · show (p.srcBuf.pushedLog ++ [c]) ++ [] = p.origin0
        simpa using hfullP
      · intro hx
        cases hx
      · intro hx
        cases hx
      · intro _
        rfl
      · intro _
        refine ⟨?_, ?_⟩ <;> intro hx <;> cases hx
      · exact hsE
      · rfl
      · exact chainInv_markEnd_ib hchainP hnf hend0 hfullP
    · rw [hE]
      refine inv_actTail hres hnf ?_ ?_ ?_ ?_ ?_ ?_ ?_ ?_
      · show (p.srcBuf.pushedLog ++ [c]) ++ rest = p.origin0
        rw [List.append_assoc]
        exact h1
      · intro _
        show (p.srcBuf.queue ++ [c]).length < p.srcBuf.capacity
        simp only [List.length_append, List.length_cons, List.length_nil]
        omega
      · intro hx
        rw [hsA] at hx
        cases hx
      · intro hx
        rw [hsA] at hx
        cases hx
      · intro hx
        rw [hend0] at hx
        cases hx
      · exact hsE
      · rw [hsA]
        rfl
      · exact hchainP
    · rw [hE]
      refine inv_actTail hres hnf ?_ ?_ ?_ ?_ ?_ ?_ ?_ ?_
      · show (p.srcBuf.pushedLog ++ [c]) ++ rest = p.origin0
        rw [List.append_assoc]
        exact h1
      · intro hx
        cases hx
      · intro _
        constructor
        · show (p.srcBuf.queue ++ [c]).length = p.srcBuf.capacity
          simp only [List.length_append, List.length_cons, List.length_nil]
          omega
        · exact hrestNE
      · intro hx
        cases hx
      · intro hx
        rw [hend0] at hx
        cases hx
      · exact hsE
      · rfl
      · exact hchainP

theorem inv_step {p : PState} (h : inv p) : inv (step p) := by
  cases hres : p.result with
  | some r =>
      rw [step_terminal (by rw [hres]; rfl)]
      exact h
  | none =>
      cases ha : anyFailed p with
      | some e =>
          rw [step_propagate hres ha]
          exact inv_propagate h hres ha
      | none =>
          rw [step_act hres ha]
          exact inv_act h hres ha

theorem inv_runPipe (origin : List Chunk) (tfs : List Tf) (caps : List Nat) :
    ∀ n, inv (runPipe origin tfs caps n) := by
  intro n
  induction n with
  | zero => exact inv_init origin tfs caps
  | succ m ih =>
      unfold runPipe at ih ⊢
      rw [Function.iterate_succ_apply']
      exact inv_step ih

end PipelineCore

namespace PipelineCore

theorem received_prefixOf_pipeOut : ∀ (ch : Chain) (res : Option PResult)
    (i : Nat) (stream : List Chunk) (ib : MBuffer),
    chainInv res i stream ib ch →
    prefixOf (receivedOf ch) (pipeOut (chainTfs ch) stream) := by
  intro ch
  induction ch with
  | snk st recv =>
      intro res i stream ib h
      obtain ⟨hbuf, hk1, _, _⟩ := h
      show prefixOf recv stream
      rw [hk1]
      exact prefixOf_trans ⟨ib.queue, hbuf.1.symm⟩ hbuf.2.2.2.2.1
  | stg s ob rest ih =>
      intro res i stream ib h
      exact ih res (i + 1) (applyTf s.tf stream) ob h.2.2

theorem completed_chain_spec : ∀ (ch : Chain) (res : Option PResult) (i : Nat)
    (stream : List Chunk) (ib : MBuffer),
    chainInv res i stream ib ch → resOk res → sinkStOf ch = .ended →
    receivedOf ch = pipeOut (chainTfs ch) stream ∧ allStagesEnded ch ∧
      ib.ended = true := by
  intro ch
  induction ch with
  | snk st recv =>
      intro res i stream ib h hok hsnk
      obtain ⟨hbuf, hk1, hk2, hk3⟩ := h
      obtain ⟨hie, hiq, hcomp⟩ := hk2 hsnk
      refine ⟨?_, hsnk, hie⟩
      have hpp : ib.poppedLog = ib.pushedLog := by
        rw [hbuf.1, hiq]
        simp
      show recv = stream
      rw [hk1, hpp, hbuf.2.2.2.2.2 hie]
  | stg s ob rest ih =>
      intro res i stream ib h hok hsnk
      obtain ⟨hbuf, hstg, hrest⟩ := h
      obtain ⟨hrecv, hallE, hobE⟩ := ih res (i + 1) (applyTf s.tf stream) ob
        hrest hok hsnk
      have hsE : s.st = .ended := hstg.2.2.2.2.2.1 hok hobE
      obtain ⟨_, _, hibE, _, _⟩ := hstg.2.2.2.2.1 hsE
      exact ⟨hrecv, ⟨hsE, hallE⟩, hibE⟩

theorem chain_buffers_bounded : ∀ (ch : Chain) (res : Option PResult) (i : Nat)
    (stream : List Chunk) (ib : MBuffer),
    chainInv res i stream ib ch →
    everyBuf (fun b => b.queue.length ≤ b.capacity ∧
      (b.terminalTaken = true → b.queue = [])) ib ch := by
  intro ch
  induction ch with
  | snk st recv =>
      intro res i stream ib h
      exact ⟨h.1.2.1, fun ht => (h.1.2.2.2.1 ht).1⟩
  | stg s ob rest ih =>
      intro res i stream ib h
      exact ⟨⟨h.1.2.1, fun ht => (h.1.2.2.2.1 ht).1⟩,
        ih res (i + 1) (applyTf s.tf stream) ob h.2.2⟩

theorem wit_stageErr : ∀ (ch : Chain) (e : PErr) (res : Option PResult)
    (i : Nat) (stream : List Chunk) (ib : MBuffer),
    chainInv res i stream ib ch → chainHasWit e ch →
    ∃ d, d < (chainTfs ch).length ∧ e = .transformError (i + d) ∧
      stageErr ((chainTfs ch).getD d noTf)
        (streamAt (chainTfs ch) stream d) = true := by
  intro ch
  induction ch with
  | snk st recv =>
      intro e res i stream ib h hw
      exact hw.elim
  | stg s ob rest ih =>
      intro e res i stream ib h hw
      obtain ⟨hbuf, hstg, hrest⟩ := h
      rcases hw with ⟨he, hei⟩ | hw
      · refine ⟨0, by simp [chainTfs], ?_, ?_⟩
        · rw [he, hstg.1, Nat.add_zero]
        · obtain ⟨c, hc⟩ := Option.isSome_iff_exists.mp hei
          obtain ⟨htfc, _⟩ := hstg.2.2.2.2.2.2.2.1 c hc
          have hpl : ib.poppedLog = s.consumed ++ [c] := by
            rw [hstg.2.1, hc]
            rfl
          have hppref : prefixOf (s.consumed ++ [c]) stream := by
            refine prefixOf_trans ?_ hbuf.2.2.2.2.1
            rw [← hpl]
            exact ⟨ib.queue, hbuf.1.symm⟩
          obtain ⟨t, ht⟩ := hppref
          show stageErr s.tf stream = true
          rw [← ht, List.append_assoc]
          exact stageErr_append_all t hstg.2.2.1 htfc
      · obtain ⟨d, hdlen, hde, hserr⟩ := ih e res (i + 1)
          (applyTf s.tf stream) ob hrest hw
        refine ⟨d + 1, ?_, ?_, ?_⟩
        · simp [chainTfs]
          omega
        · rw [hde]
          congr 1
          omega
        · exact hserr

theorem chainTfs_mkChain : ∀ (tfs : List Tf) (i : Nat) (caps : List Nat),
    chainTfs (mkChain i tfs caps) = tfs := by
  intro tfs
  induction tfs with
  | nil => intro i caps; rfl
  | cons tf rest ih =>
      intro i caps
      show tf :: chainTfs (mkChain (i + 1) rest caps) = tf :: rest
      rw [ih]

theorem stepSrc_static (p : PState) :
    (stepSrc p).origin0 = p.origin0 ∧ (stepSrc p).chain = p.chain ∧
    (stepSrc p).result = p.result := by
  rcases stepSrc_cases p with hE | ⟨_, _, hE⟩ |
    ⟨c, rest, _, _, _, (⟨_, hE⟩ | ⟨_, _, hE⟩ | ⟨_, _, hE⟩)⟩ <;>
    rw [hE] <;> exact ⟨rfl, rfl, rfl⟩

theorem stepActTail_static (p1 : PState) :
    (stepActTail p1).origin0 = p1.origin0 ∧
    chainTfs (stepActTail p1).chain = chainTfs p1.chain := by
  unfold stepActTail
  split <;> exact ⟨rfl, chainTfs_stepChain p1.chain p1.srcBuf⟩

theorem step_static (p : PState) :
    (step p).origin0 = p.origin0 ∧ chainTfs (step p).chain = chainTfs p.chain := by
  unfold step
  split
  · exact ⟨rfl, rfl⟩
  · split
    · exact ⟨rfl, chainTfs_propChain _ p.chain⟩
    · obtain ⟨ho, hc, _⟩ := stepSrc_static p
      obtain ⟨h1, h2⟩ := stepActTail_static (stepSrc p)
      exact ⟨by rw [h1, ho], by rw [h2, hc]⟩

theorem runPipe_static (origin : List Chunk) (tfs : List Tf) (caps : List Nat) :
    ∀ n, (runPipe origin tfs caps n).origin0 = origin ∧
      chainTfs (runPipe origin tfs caps n).chain = tfs := by
  intro n
  induction n with
  | zero => exact ⟨rfl, chainTfs_mkChain tfs 0 caps⟩
  | succ m ih =>
      unfold runPipe at ih ⊢
      rw [Function.iterate_succ_apply']
      obtain ⟨h1, h2⟩ := step_static (step^[m] (init origin tfs caps))
      exact ⟨by rw [h1, ih.1], by rw [h2, ih.2]⟩

theorem cancelSt_failed (st : StSt) : ∃ x, cancelSt st = .failed x := by
  cases st with
  | failed e => exact ⟨e, rfl⟩
  | active => exact ⟨.cancelled, rfl⟩
  | ended => exact ⟨.cancelled, rfl⟩

theorem propChain_allFailed (e : PErr) : ∀ ch, allStagesFailed (propChain e ch) := by
  intro ch
  induction ch with
  | snk st recv => exact cancelSt_failed st
  | stg s ob rest ih => exact ⟨cancelSt_failed s.st, ih⟩

theorem markError_ne_none (b : MBuffer) (e : PErr) :
    (b.markError e).err ≠ none := by
  unfold MBuffer.markError
  split
  · intro h
    next hs =>
      rw [h] at hs
      simp at hs
  · intro h
    cases h

theorem propChain_allMarked (e : PErr) : ∀ ch, allBufsMarked (propChain e ch) := by
  intro ch
  induction ch with
  | snk st recv => trivial
  | stg s ob rest ih => exact ⟨markError_ne_none ob e, ih⟩

theorem stepSrc_paused {p : PState} (hp : p.srcSt = .paused) : stepSrc p = p := by
  unfold stepSrc
  rw [hp]

theorem step_paused_no_produce {p : PState} (hp : p.srcSt = .paused) :
    (step p).originRem = p.originRem ∧
    (step p).srcBuf.pushedLog = p.srcBuf.pushedLog := by
  unfold step
  split
  · exact ⟨rfl, rfl⟩
  · split
    · exact ⟨rfl, markError_pushedLog _ _⟩
    · rw [stepSrc_paused hp]
      unfold stepActTail
      obtain ⟨heP, _, _, _, _⟩ := stepChain_effect p.srcBuf p.chain
      split <;> exact ⟨rfl, heP⟩

theorem step_resume {p : PState} (hres : p.result = none)
    (ha : anyFailed p = none) (hp : p.srcSt = .paused)
    (hdrain : (stepChain p.srcBuf p.chain).1.queue.length <
      p.srcBuf.queue.length)
    (hcap : p.srcBuf.queue.length = p.srcBuf.capacity) :
    (step p).srcSt = .active ∧ (step p).resumes = p.resumes + 1 := by
  rw [step_act hres ha, stepSrc_paused hp]
  have hr : srcResumes p := ⟨hp, hdrain, hcap⟩
  unfold stepActTail
  split <;> simp [hr]

theorem stepSrc_push_then_pause {p : PState} {c : Chunk} {rest : List Chunk}
    (hA : p.srcSt = .active) (hrem : p.originRem = c :: rest)
    (hcl : p.srcBuf.closed = false)
    (hfull : ¬ p.srcBuf.queue.length + 1 < p.srcBuf.capacity) :
    (rest ≠ [] → (stepSrc p).srcSt = .paused ∧
      (stepSrc p).pauses = p.pauses + 1) ∧
    (rest = [] → (stepSrc p).srcSt = .ended) := by
  constructor
  · intro hne
    have hie : rest.isEmpty = false := by
      cases rest with
      | nil => exact absurd rfl hne
      | cons a l => rfl
    constructor <;>
      simp [stepSrc, hA, hrem, tryPush_open_eq hcl, hie, hfull]
  · intro he
    subst he
    simp [stepSrc, hA, hrem, tryPush_open_eq hcl]

end PipelineCore

namespace PipelineCore

/-- C2: in every reachable state of every pipeline run the Sink has
received exactly an initial segment of the denotational output of the
transform chain over the origin sequence, in that order; and when the run
reports Completed the Sink has received exactly that output. -/
theorem c2_order_preservation (origin : List Chunk) (tfs : List Tf)
    (caps : List Nat) (n : Nat) :
    prefixOf (runPipe origin tfs caps n).received (pipeOut tfs origin) ∧
    ((runPipe origin tfs caps n).result = some .completed →
      (runPipe origin tfs caps n).received = pipeOut tfs origin) := by
  have hinv := inv_runPipe origin tfs caps n
  obtain ⟨ho, hc⟩ := runPipe_static origin tfs caps n
  obtain ⟨i1, i2, i3, i4, i5, i6, i7, i8, i9, i10⟩ := hinv
  constructor
  · have hpre := received_prefixOf_pipeOut _ _ 0 _ _ i10
    rw [hc, ho] at hpre
    exact hpre
  · intro hcomp
    obtain ⟨hrecv, _, _⟩ := completed_chain_spec _ _ 0 _ _ i10
      (Or.inr hcomp) (i8 hcomp)
    rw [hc, ho] at hrecv
    exact hrecv

/-- Witness for C2 on a completed concrete run. -/
theorem c2_order_preservation_witness :
    (runPipe ["x", "y"] [upTf] [2, 2] 12).result = some .completed ∧
    (runPipe ["x", "y"] [upTf] [2, 2] 12).received = pipeOut [upTf] ["x", "y"] :=
  ⟨by decide, (c2_order_preservation ["x", "y"] [upTf] [2, 2] 12).2 (by decide)⟩

/-- C3: in every reachable state of every pipeline run, every buffer holds
at most its configured capacity (so occupancy never exceeds capacity by
more than the one in-flight chunk the claim allows), and a buffer past
which the terminal marker has been drained holds no chunks. -/
theorem c3_bounded_buffers (origin : List Chunk) (tfs : List Tf)
    (caps : List Nat) (n : Nat) :
    everyBuf (fun b => b.queue.length ≤ b.capacity ∧
      (b.terminalTaken = true → b.queue = []))
      (runPipe origin tfs caps n).srcBuf (runPipe origin tfs caps n).chain := by
  have hinv := inv_runPipe origin tfs caps n
  exact chain_buffers_bounded _ _ 0 _ _ hinv.2.2.2.2.2.2.2.2.2

/-- Witness for C3 on a concrete run. -/
theorem c3_bounded_buffers_witness :
    everyBuf (fun b => b.queue.length ≤ b.capacity ∧
      (b.terminalTaken = true → b.queue = []))
      (runPipe ["x"] [upTf] [1, 1] 3).srcBuf
      (runPipe ["x"] [upTf] [1, 1] 3).chain :=
  c3_bounded_buffers ["x"] [upTf] [1, 1] 3

/-- C1: all-or-nothing failure.  In every reachable state of every run:
the Sink has received only an initial segment of the error-truncated
denotational output, so no chunk produced from an input at or after a
raising chunk is ever delivered; a Completed report implies every stage
ended and the Source never failed; any Failed report names a stage whose
step function really raises on its denotational input stream, and under
the hypothesis that stage k is the only raising stage the report names
exactly k; and one scheduler step after the first observed failure the
result is fixed to that failure, every stage including Source and Sink is
in a failed (cancelled) state and every buffer is marked with an error. -/
theorem c1_all_or_nothing (origin : List Chunk) (tfs : List Tf)
    (caps : List Nat) (n : Nat) :
    prefixOf (runPipe origin tfs caps n).received (pipeOut tfs origin) ∧
    ((runPipe origin tfs caps n).result = some .completed →
      allStagesEnded (runPipe origin tfs caps n).chain ∧
      srcFailedErr (runPipe origin tfs caps n).srcSt = none) ∧
    (∀ e, (runPipe origin tfs caps n).result = some (.failed e) →
      ∃ m, m < tfs.length ∧ e = .transformError m ∧
        stageErr (tfs.getD m noTf) (streamAt tfs origin m) = true) ∧
    (∀ k, (∀ j, j < tfs.length →
        stageErr (tfs.getD j noTf) (streamAt tfs origin j) = true → j = k) →
      ∀ e, (runPipe origin tfs caps n).result = some (.failed e) →
        e = .transformError k) ∧
    (∀ e, (runPipe origin tfs caps n).result = none →
      anyFailed (runPipe origin tfs caps n) = some e →
      (step (runPipe origin tfs caps n)).result = some (.failed e) ∧
      allStagesFailed (step (runPipe origin tfs caps n)).chain ∧
      allBufsMarked (step (runPipe origin tfs caps n)).chain ∧
      (∃ x, (step (runPipe origin tfs caps n)).srcSt = .failed x) ∧
      (step (runPipe origin tfs caps n)).srcBuf.err ≠ none) := by
  have hinv := inv_runPipe origin tfs caps n
  obtain ⟨ho, hc⟩ := runPipe_static origin tfs caps n
  obtain ⟨i1, i2, i3, i4, i5, i6, i7, i8, i9, i10⟩ := hinv
  have hwitden : ∀ e, (runPipe origin tfs caps n).result = some (.failed e) →
      ∃ m, m < tfs.length ∧ e = .transformError m ∧
        stageErr (tfs.getD m noTf) (streamAt tfs origin m) = true := by
    intro e hres
    obtain ⟨d, hdl, hde, hserr⟩ := wit_stageErr _ e _ 0 _ _ i10 (i9 e hres)
    rw [Nat.zero_add] at hde
    rw [hc] at hdl
    rw [hc, ho] at hserr
    exact ⟨d, hdl, hde, hserr⟩
  refine ⟨?_, ?_, hwitden, ?_, ?_⟩
  · have hpre := received_prefixOf_pipeOut _ _ 0 _ _ i10
    rw [hc, ho] at hpre
    exact hpre
  · intro hcomp
    obtain ⟨_, hall, _⟩ := completed_chain_spec _ _ 0 _ _ i10
      (Or.inr hcomp) (i8 hcomp)
    exact ⟨hall, i7 (Or.inr hcomp)⟩
  · intro k huniq e hres
    obtain ⟨m, hml, hme, hserr⟩ := hwitden e hres
    rw [hme, huniq m hml hserr]
  · intro e hres ha
    rw [step_propagate hres ha]
    exact ⟨rfl, propChain_allFailed e _, propChain_allMarked e _,
      cancelSrcSt_failed _, markError_ne_none _ e⟩

/-- Witness for C1 on the spec's failure scenario: origin a, b, one
transform raising on b. -/
theorem c1_all_or_nothing_witness :
    (runPipe ["a", "b"] [errOnB] [1, 1] 6).result =
      some (.failed (.transformError 0)) ∧
    (∃ m, m < 1 ∧ (PErr.transformError 0 : PErr) = .transformError m ∧
      stageErr ([errOnB].getD m noTf) (streamAt [errOnB] ["a", "b"] m) = true) ∧
    (runPipe ["a", "b"] [errOnB] [1, 1] 3).result = none ∧
    anyFailed (runPipe ["a", "b"] [errOnB] [1, 1] 3) =
      some (.transformError 0) ∧
    (step (runPipe ["a", "b"] [errOnB] [1, 1] 3)).result =
      some (.failed (.transformError 0)) ∧
    allStagesFailed (step (runPipe ["a", "b"] [errOnB] [1, 1] 3)).chain ∧
    allBufsMarked (step (runPipe ["a", "b"] [errOnB] [1, 1] 3)).chain := by
  have h3 := (c1_all_or_nothing ["a", "b"] [errOnB] [1, 1] 6).2.2.1
    (.transformError 0) (by decide)
  have h5 := (c1_all_or_nothing ["a", "b"] [errOnB] [1, 1] 3).2.2.2.2
    (.transformError 0) (by decide) (by decide)
  exact ⟨by decide, h3, by decide, by decide, h5.1, h5.2.1, h5.2.2.1⟩

/-- C4 counterexample: the claim that the Source pauses after every push
reported not-below-capacity fails when that push exhausts the origin: on
origin a with capacity one, the push of a reports not-below-capacity, yet
the Source transitions to Ended and the whole run never pauses. -/
theorem c4_counterexample :
    ((init ["a"] [upTf] [1, 1]).srcBuf.tryPush "a").1 = .accepted false ∧
    (runPipe ["a"] [upTf] [1, 1] 1).srcSt = .ended ∧
    (runPipe ["a"] [upTf] [1, 1] 1).pauses = 0 ∧
    (runPipe ["a"] [upTf] [1, 1] 6).result = some .completed ∧
    (runPipe ["a"] [upTf] [1, 1] 6).pauses = 0 := by
  exact ⟨by decide, by decide, by decide, by decide, by decide⟩

/-- C4 as amended: a producing Source always sees a below-capacity
buffer (it stops producing within one cycle of the buffer reaching
capacity); a paused Source produces no chunk during a scheduler step;
when a push fills the buffer to capacity the Source pauses immediately
after that push unless that push exhausted the origin, in which case it
ends; and a paused Source resumes, counting one resume, within the same
scheduler step as the drain signal that empties a slot of its buffer. -/
theorem c4_backpressure_amended (origin : List Chunk) (tfs : List Tf)
    (caps : List Nat) (n : Nat) :
    ((runPipe origin tfs caps n).srcSt = .active →
      (runPipe origin tfs caps n).srcBuf.queue.length <
        (runPipe origin tfs caps n).srcBuf.capacity) ∧
    ((runPipe origin tfs caps n).srcSt = .paused →
      (step (runPipe origin tfs caps n)).originRem =
        (runPipe origin tfs caps n).originRem ∧
      (step (runPipe origin tfs caps n)).srcBuf.pushedLog =
        (runPipe origin tfs caps n).srcBuf.pushedLog) ∧
    (∀ c rest, (runPipe origin tfs caps n).srcSt = .active →
      (runPipe origin tfs caps n).originRem = c :: rest →
      ¬ (runPipe origin tfs caps n).srcBuf.queue.length + 1 <
        (runPipe origin tfs caps n).srcBuf.capacity →
      (runPipe origin tfs caps n).result = none →
      ((rest ≠ [] →
          (stepSrc (runPipe origin tfs caps n)).srcSt = .paused ∧
          (stepSrc (runPipe origin tfs caps n)).pauses =
            (runPipe origin tfs caps n).pauses + 1) ∧
       (rest = [] → (stepSrc (runPipe origin tfs caps n)).srcSt = .ended))) ∧
    ((runPipe origin tfs caps n).result = none →
      anyFailed (runPipe origin tfs caps n) = none →
      (runPipe origin tfs caps n).srcSt = .paused →
      (stepChain (runPipe origin tfs caps n).srcBuf
          (runPipe origin tfs caps n).chain).1.queue.length <
        (runPipe origin tfs caps n).srcBuf.queue.length →
      (runPipe origin tfs caps n).srcBuf.queue.length =
        (runPipe origin tfs caps n).srcBuf.capacity →
      (step (runPipe origin tfs caps n)).srcSt = .active ∧
      (step (runPipe origin tfs caps n)).resumes =
        (runPipe origin tfs caps n).resumes + 1) := by
  have hinv := inv_runPipe origin tfs caps n
  obtain ⟨i1, i2, i3, i4, i5, i6, i7, i8, i9, i10⟩ := hinv
  refine ⟨i2, ?_, ?_, ?_⟩
  · exact fun hp => step_paused_no_produce hp
  · intro c rest hA hrem hfull hres
    have hend : (runPipe origin tfs caps n).srcBuf.ended = false := by
      cases hd : (runPipe origin tfs caps n).srcBuf.ended
      · rfl
      · exact absurd hA (i5 hd).1
    have hcl : (runPipe origin tfs caps n).srcBuf.closed = false := by
      unfold MBuffer.closed
      rw [hend, i6 (Or.inl hres)]
      rfl
    exact stepSrc_push_then_pause hA hrem hcl hfull
  · intro hres ha hp hdrain hcap
    exact step_resume hres ha hp hdrain hcap

/-- Witness for C4 as amended, on concrete states of the example runs:
the initial full-report push pauses the Source, a paused Source produces
nothing, and the next drain resumes it within one step. -/
theorem c4_backpressure_amended_witness :
    ((stepSrc (runPipe ["a", "b"] [upTf] [1, 1] 0)).srcSt = .paused ∧
     (stepSrc (runPipe ["a", "b"] [upTf] [1, 1] 0)).pauses =
       (runPipe ["a", "b"] [upTf] [1, 1] 0).pauses + 1) ∧
    ((step (runPipe ["a", "b", "c"] [upTf] [1, 1] 2)).originRem =
       (runPipe ["a", "b", "c"] [upTf] [1, 1] 2).originRem ∧
     (step (runPipe ["a", "b", "c"] [upTf] [1, 1] 2)).srcBuf.pushedLog =
       (runPipe ["a", "b", "c"] [upTf] [1, 1] 2).srcBuf.pushedLog) ∧
    ((step (runPipe ["a", "b", "c"] [upTf] [1, 1] 2)).srcSt = .active ∧
     (step (runPipe ["a", "b", "c"] [upTf] [1, 1] 2)).resumes =
       (runPipe ["a", "b", "c"] [upTf] [1, 1] 2).resumes + 1) := by
  refine ⟨?_, ?_, ?_⟩
  · exact ((c4_backpressure_amended ["a", "b"] [upTf] [1, 1] 0).2.2.1 "a" ["b"]
      (by decide) (by decide) (by decide) (by decide)).1 (by decide)
  · exact (c4_backpressure_amended ["a", "b", "c"] [upTf] [1, 1] 2).2.1
      (by decide)
  · exact (c4_backpressure_amended ["a", "b", "c"] [upTf] [1, 1] 2).2.2.2
      (by decide) (by decide) (by decide) (by decide) (by decide)

end PipelineCore
